import Mathlib

set_option maxHeartbeats 1000000

/-!
# Verification of the pymadcad geometric kernel

Shallow embedding of the data model and algorithms of the pymadcad sources
(`hashing.py`, `madcad/mesh.py`, `madcad/triangulation.py`) and proofs about
them.  Python floats are modelled as exact rationals (`ℚ`) where all the
operations involved are field operations, and as exact reals (`ℝ`) where the
code takes square roots (`normalize`, `length`).  Python `dict`s are modelled
as association lists, Python `set`s of hashables as `Finset`s.
-/

namespace Madcad

/-- A triangular face: a triple of point indices (an entry of `Mesh.faces`). -/
abbrev Face := ℕ × ℕ × ℕ

/-- The three oriented edges of a face, in the order the source iterates them:
`(face[0],face[1]), (face[1],face[2]), (face[2],face[0])`. -/
def fedges (f : Face) : List (ℕ × ℕ) := [(f.1, f.2.1), (f.2.1, f.2.2), (f.2.2, f.1)]

/-- `edgekey(a,b)` from `madcad/mesh.py`: key for a non-directional edge. -/
def edgekey (a b : ℕ) : ℕ × ℕ := if a < b then (a, b) else (b, a)

/-- `edgekey(*e)` applied to an oriented edge. -/
def ekey (e : ℕ × ℕ) : ℕ × ℕ := edgekey e.1 e.2

/-- Reversal of an oriented edge. -/
def erev (e : ℕ × ℕ) : ℕ × ℕ := (e.2, e.1)

/-- Reversal of a face as done by `Mesh.flip`: `(f[0], f[2], f[1])`. -/
def flipFace (f : Face) : Face := (f.1, f.2.2, f.2.1)

/-- Face reversal as done by `Mesh.orient`: `(f[2], f[1], f[0])`. -/
def revFace (f : Face) : Face := (f.2.2, f.2.1, f.1)

/-- `Mesh` / `Web` container data (`madcad/mesh.py`).  The group metadata is
opaque to every algorithm treated here, so groups are modelled as `Unit`s;
point coordinates are a type parameter (`ℚ` or `ℝ` depending on use). -/
structure Mesh (α : Type) where
  points : List α
  faces : List Face
  tracks : List ℕ
  groups : List Unit

/-- `Mesh.flip`: flip all faces. -/
def Mesh.flip {α} (m : Mesh α) : Mesh α :=
  { m with faces := m.faces.map flipFace }

/-- `Mesh.edges_oriented`: all oriented edges, face by face. -/
def edgesOriented (faces : List Face) : List (ℕ × ℕ) :=
  faces.flatMap fedges

/-- One step of the `Mesh.outlines_oriented` loop:
`if e in edges: edges.remove(e); else: edges.add((e[1],e[0]))`. -/
def ooStep (s : Finset (ℕ × ℕ)) (e : ℕ × ℕ) : Finset (ℕ × ℕ) :=
  if e ∈ s then s.erase e else insert (erev e) s

/-- `Mesh.outlines_oriented`. -/
def Mesh.outlinesOriented {α} (m : Mesh α) : Finset (ℕ × ℕ) :=
  m.faces.foldl (fun s f => (fedges f).foldl ooStep s) ∅

/-- One step of the `Mesh.outlines_unoriented` loop (toggle of the edge key). -/
def ouStep (s : Finset (ℕ × ℕ)) (k : ℕ × ℕ) : Finset (ℕ × ℕ) :=
  if k ∈ s then s.erase k else insert k s

/-- `Mesh.outlines_unoriented`. -/
def Mesh.outlinesUnoriented {α} (m : Mesh α) : Finset (ℕ × ℕ) :=
  m.faces.foldl (fun s f => (fedges f).foldl (fun s e => ouStep s (ekey e)) s) ∅

/-- Helper for `Mesh.issurface`: the `reached` set loop with early `False`. -/
def issurfaceAux : List (ℕ × ℕ) → Finset (ℕ × ℕ) → Bool
  | [], _ => true
  | e :: rest, seen => if e ∈ seen then false else issurfaceAux rest (insert e seen)

/-- `Mesh.issurface`: no oriented edge is used twice. -/
def Mesh.issurface {α} (m : Mesh α) : Bool :=
  issurfaceAux (edgesOriented m.faces) ∅

/-- `Mesh.check` as a boolean (the source raises `MeshError`; `isvalid` wraps it
into a boolean exactly this way).  Point indices are modelled as naturals, so
the source's `p < 0` branch is unrepresentable.  `max(tracks, default=-1) >=
len(groups)` is equivalent to some track being `≥ len(groups)`. -/
def Mesh.checkB {α} (m : Mesh α) : Bool :=
  m.faces.all (fun f =>
    decide (f.1 < m.points.length) && decide (f.2.1 < m.points.length) &&
    decide (f.2.2 < m.points.length) &&
    !(f.1 == f.2.1 || f.2.1 == f.2.2 || f.2.2 == f.1)) &&
  (m.faces.length == m.tracks.length) &&
  m.tracks.all (fun t => decide (t < m.groups.length))

/-! ## Generic facts about the outline folds -/

theorem erev_erev (e : ℕ × ℕ) : erev (erev e) = e := rfl

theorem erev_eq_iff {x e : ℕ × ℕ} : erev x = e ↔ x = erev e := by
  constructor <;> intro h <;> simp [erev, Prod.ext_iff] at * <;> omega

theorem erev_ne_self {e : ℕ × ℕ} (h : e.1 ≠ e.2) : erev e ≠ e := by
  simp [erev, Prod.ext_iff]; omega

theorem foldl_inner_bind {α : Type} (g : α → List (ℕ × ℕ)) (step : Finset (ℕ × ℕ) → (ℕ × ℕ) → Finset (ℕ × ℕ))
    (l : List α) (init : Finset (ℕ × ℕ)) :
    l.foldl (fun s f => (g f).foldl step s) init = (l.flatMap g).foldl step init := by
  induction l generalizing init with
  | nil => rfl
  | cons f rest ih => simp [List.flatMap, ih, List.foldl_append]

/-- Membership in the `outlines_oriented` fold, for a duplicate-free list of
oriented edges none of which is degenerate. -/
theorem foldl_ooStep_mem (L : List (ℕ × ℕ)) :
    L.Nodup → (∀ e ∈ L, e.1 ≠ e.2) →
    ∀ x : ℕ × ℕ, (x ∈ L.foldl ooStep ∅ ↔ erev x ∈ L ∧ x ∉ L) := by
  induction L using List.reverseRecOn with
  | nil => simp
  | append_singleton L e ih =>
    intro hnd hne x
    have hndL : L.Nodup := hnd.of_append_left
    have heL : e ∉ L := by
      have h2 := List.nodup_append.mp hnd
      intro hmem; exact h2.2.2 hmem (List.mem_singleton_self e)
    have hneL : ∀ a ∈ L, a.1 ≠ a.2 := fun a ha => hne a (List.mem_append_left _ ha)
    have hee : e.1 ≠ e.2 := hne e (List.mem_append_right _ (List.mem_singleton_self e))
    rw [List.foldl_append]
    simp only [List.foldl_cons, List.foldl_nil]
    by_cases hcase : e ∈ L.foldl ooStep ∅
    · have hc := (ih hndL hneL e).mp hcase
      rw [ooStep, if_pos hcase]
      simp only [Finset.mem_erase, ih hndL hneL, List.mem_append, List.mem_singleton]
      constructor
      · rintro ⟨hxe, hrx, hx⟩
        exact ⟨Or.inl hrx, by rintro (h | h); exact hx h; exact hxe h⟩
      · rintro ⟨hrx | hrx, hx⟩
        · refine ⟨?_, hrx, fun h => hx (Or.inl h)⟩
          rintro rfl; exact hx (Or.inr rfl)
        · exfalso
          have hx2 : x = erev e := erev_eq_iff.mp hrx
          exact hx (Or.inl (by rw [hx2]; exact hc.1))
    · have hc := (ih hndL hneL e).not.mp hcase
      push_neg at hc
      have hre : erev e ∉ L := by
        intro h; exact heL (hc h)
      rw [ooStep, if_neg hcase]
      simp only [Finset.mem_insert, ih hndL hneL, List.mem_append, List.mem_singleton]
      constructor
      · rintro (rfl | ⟨hrx, hx⟩)
        · refine ⟨Or.inr rfl, ?_⟩
          rintro (h | h)
          · exact hre h
          · exact erev_ne_self hee h
        · refine ⟨Or.inl hrx, ?_⟩
          rintro (h | h)
          · exact hx h
          · subst h; exact hre hrx
      · rintro ⟨hrx | hrx, hx⟩
        · right
          refine ⟨hrx, fun h => hx (Or.inl h)⟩
        · left; exact erev_eq_iff.mp hrx

/-- Membership in the `outlines_unoriented`-style toggle fold is parity of the
number of occurrences. -/
theorem foldl_ouStep_mem (L : List (ℕ × ℕ)) :
    ∀ x : ℕ × ℕ, (x ∈ L.foldl ouStep ∅ ↔ Odd (L.count x)) := by
  induction L using List.reverseRecOn with
  | nil => simp
  | append_singleton L e ih =>
    intro x
    rw [List.foldl_append]
    simp only [List.foldl_cons, List.foldl_nil, List.count_append]
    by_cases hxe : x = e
    · subst hxe
      have hcount : List.count x [x] = 1 := by simp
      rw [hcount]
      by_cases hcase : x ∈ L.foldl ouStep ∅
      · rw [ouStep, if_pos hcase]
        have hodd := (ih x).mp hcase
        simp only [Finset.mem_erase, ne_eq, not_true_eq_false, false_and, false_iff]
        rw [Nat.odd_iff] at hodd ⊢
        omega
      · rw [ouStep, if_neg hcase]
        have hnodd := (ih x).not.mp hcase
        simp only [Finset.mem_insert, true_or, true_iff]
        rw [Nat.odd_iff] at hnodd ⊢
        omega
    · have hcount : List.count x [e] = 0 := by
        simp [List.count_cons, hxe, Ne.symm hxe]
      rw [hcount, Nat.add_zero]
      by_cases hcase : e ∈ L.foldl ouStep ∅
      · rw [ouStep, if_pos hcase]
        simp only [Finset.mem_erase, ne_eq, hxe, not_false_eq_true, true_and]
        exact ih x
      · rw [ouStep, if_neg hcase]
        simp only [Finset.mem_insert, hxe, false_or]
        exact ih x

theorem issurfaceAux_iff (L : List (ℕ × ℕ)) (seen : Finset (ℕ × ℕ)) :
    issurfaceAux L seen = true ↔ L.Nodup ∧ ∀ e ∈ L, e ∉ seen := by
  induction L generalizing seen with
  | nil =>
    rw [show issurfaceAux [] seen = true from rfl]
    simp
  | cons e rest ih =>
    rw [show issurfaceAux (e :: rest) seen =
        (if e ∈ seen then false else issurfaceAux rest (insert e seen)) from rfl]
    by_cases he : e ∈ seen
    · rw [if_pos he]
      constructor
      · intro h; simp at h
      · rintro ⟨_, hall⟩
        exact absurd he (hall e (List.mem_cons_self e rest))
    · rw [if_neg he, ih, List.nodup_cons]
      constructor
      · rintro ⟨hnd, hall⟩
        refine ⟨⟨fun h => ?_, hnd⟩, ?_⟩
        · exact hall e h (Finset.mem_insert_self e seen)
        · intro a ha
          rcases List.mem_cons.mp ha with rfl | ha'
          · exact he
          · exact fun hs => hall a ha' (Finset.mem_insert_of_mem hs)
      · rintro ⟨⟨hne, hnd⟩, hall⟩
        refine ⟨hnd, fun a ha hs => ?_⟩
        rcases Finset.mem_insert.mp hs with rfl | hs'
        · exact hne ha
        · exact hall a (List.mem_cons_of_mem e ha) hs'

theorem issurface_nodup {α} (m : Mesh α) (h : m.issurface = true) :
    (edgesOriented m.faces).Nodup :=
  ((issurfaceAux_iff _ _).mp h).1

theorem erev_injective : Function.Injective erev := by
  intro a b h
  simp only [erev, Prod.mk.injEq] at h
  exact Prod.ext h.2 h.1

theorem checkB_faces {α} (m : Mesh α) (hck : m.checkB = true) :
    ∀ f ∈ m.faces, f.1 ≠ f.2.1 ∧ f.2.1 ≠ f.2.2 ∧ f.2.2 ≠ f.1 := by
  intro f hf
  simp only [Mesh.checkB, Bool.and_eq_true, List.all_eq_true] at hck
  have h := hck.1.1 f hf
  simp only [Bool.and_eq_true, decide_eq_true_eq, Bool.not_eq_true', Bool.or_eq_false_iff,
    beq_eq_false_iff_ne, ne_eq] at h
  tauto

theorem edgesOriented_ne {α} (m : Mesh α) (hck : m.checkB = true) :
    ∀ e ∈ edgesOriented m.faces, e.1 ≠ e.2 := by
  intro e he
  rw [edgesOriented, List.mem_flatMap] at he
  obtain ⟨f, hf, hef⟩ := he
  have h3 := checkB_faces m hck f hf
  simp only [fedges, List.mem_cons, List.not_mem_nil, or_false] at hef
  rcases hef with rfl | rfl | rfl
  · exact h3.1
  · exact h3.2.1
  · exact h3.2.2

theorem mem_fedges_flip (f : Face) (x : ℕ × ℕ) :
    x ∈ fedges (flipFace f) ↔ erev x ∈ fedges f := by
  simp only [fedges, flipFace, erev, List.mem_cons, List.not_mem_nil, or_false,
    Prod.mk.injEq, Prod.ext_iff]
  tauto

theorem mem_edgesOriented_flip {α} (m : Mesh α) (x : ℕ × ℕ) :
    x ∈ edgesOriented m.flip.faces ↔ erev x ∈ edgesOriented m.faces := by
  simp only [edgesOriented, Mesh.flip, List.mem_flatMap, List.mem_map]
  constructor
  · rintro ⟨f', ⟨f, hf, rfl⟩, hx⟩
    exact ⟨f, hf, (mem_fedges_flip f x).mp hx⟩
  · rintro ⟨f, hf, hx⟩
    exact ⟨flipFace f, ⟨f, hf, rfl⟩, (mem_fedges_flip f x).mpr hx⟩

theorem edgesOriented_flip_perm (faces : List Face) :
    List.Perm (edgesOriented (faces.map flipFace)) ((edgesOriented faces).map erev) := by
  unfold edgesOriented
  rw [List.map_flatMap, List.flatMap_map]
  apply List.Perm.flatMap_left
  intro f _
  rw [show fedges (flipFace f) = ((fedges f).map erev).reverse from rfl]
  exact List.reverse_perm _

theorem edgesOriented_flip_nodup {α} (m : Mesh α) (hs : m.issurface = true) :
    (edgesOriented m.flip.faces).Nodup := by
  rw [Mesh.flip]
  exact ((edgesOriented_flip_perm m.faces).nodup_iff).mpr
    ((issurface_nodup m hs).map erev_injective)

/-- Characterization of `outlines_oriented` over a mesh whose oriented edges
are pairwise distinct: the result is exactly the reversals of the unmatched
traversals. -/
theorem outlinesOriented_eq {α} (m : Mesh α) (hck : m.checkB = true) (hs : m.issurface = true)
    (x : ℕ × ℕ) :
    x ∈ m.outlinesOriented ↔ erev x ∈ edgesOriented m.faces ∧ x ∉ edgesOriented m.faces := by
  rw [Mesh.outlinesOriented, foldl_inner_bind]
  exact foldl_ooStep_mem _ (issurface_nodup m hs) (edgesOriented_ne m hck) x

theorem outlinesOriented_flip_eq {α} (m : Mesh α) (hck : m.checkB = true) (hs : m.issurface = true)
    (x : ℕ × ℕ) :
    x ∈ m.flip.outlinesOriented ↔ x ∈ edgesOriented m.faces ∧ erev x ∉ edgesOriented m.faces := by
  have hne' : ∀ e ∈ edgesOriented m.flip.faces, e.1 ≠ e.2 := by
    intro e he
    have h := edgesOriented_ne m hck (erev e) ((mem_edgesOriented_flip m e).mp he)
    exact fun hc => h hc.symm
  have hmain : x ∈ m.flip.outlinesOriented ↔
      erev x ∈ edgesOriented m.flip.faces ∧ x ∉ edgesOriented m.flip.faces := by
    rw [Mesh.outlinesOriented, foldl_inner_bind]
    exact foldl_ooStep_mem _ (edgesOriented_flip_nodup m hs) hne' x
  rw [hmain, mem_edgesOriented_flip, mem_edgesOriented_flip, erev_erev]

theorem outlinesUnoriented_eq {α} (m : Mesh α) (x : ℕ × ℕ) :
    x ∈ m.outlinesUnoriented ↔ Odd (((edgesOriented m.faces).map ekey).count x) := by
  rw [Mesh.outlinesUnoriented, foldl_inner_bind, ← List.foldl_map ekey ouStep]
  exact foldl_ouStep_mem _ x

theorem ekey_eq_iff {e x : ℕ × ℕ} (he : e.1 ≠ e.2) (hx : x.1 ≠ x.2) :
    ekey e = ekey x ↔ e = x ∨ e = erev x := by
  obtain ⟨a, b⟩ := e
  obtain ⟨c, d⟩ := x
  simp only [ekey, edgekey, erev] at *
  split_ifs <;> simp only [Prod.mk.injEq] <;> omega

theorem count_map_ekey (L : List (ℕ × ℕ)) (hne : ∀ e ∈ L, e.1 ≠ e.2) {x : ℕ × ℕ}
    (hx : x.1 ≠ x.2) :
    (L.map ekey).count (ekey x) = L.count x + L.count (erev x) := by
  induction L with
  | nil => simp
  | cons e rest ih =>
    have hrest := ih (fun a ha => hne a (List.mem_cons_of_mem e ha))
    have hee := hne e (List.mem_cons_self e rest)
    have hiff := ekey_eq_iff hee hx
    simp only [List.map_cons, List.count_cons, hrest, beq_iff_eq]
    by_cases h1 : e = x
    · rw [if_pos (by rw [h1]), if_pos h1,
        if_neg (fun hcon => hx (congrArg Prod.fst (h1.symm.trans hcon)))]
      omega
    · by_cases h2 : e = erev x
      · rw [if_pos (hiff.mpr (Or.inr h2)), if_neg h1, if_pos h2]
        omega
      · rw [if_neg (fun hcon => (hiff.mp hcon).elim h1 h2), if_neg h1, if_neg h2]
        omega

/-- Element counts in a duplicate-free list, for any lawful `BEq`. -/
theorem nodup_count_eq {γ : Type} [BEq γ] [LawfulBEq γ] [DecidableEq γ] {l : List γ}
    (h : l.Nodup) (x : γ) :
    l.count x = if x ∈ l then 1 else 0 := by
  induction l with
  | nil => simp
  | cons e rest ih =>
    have hnd := List.nodup_cons.mp h
    rw [List.count_cons, ih hnd.2]
    by_cases hex : e = x
    · subst hex
      have hx : e ∉ rest := hnd.1
      simp [hx]
    · simp only [beq_iff_eq, hex, if_false, Nat.add_zero, List.mem_cons]
      by_cases hxr : x ∈ rest
      · simp [hxr]
      · simp [hxr, Ne.symm hex]

/-- C7 (amended): for a mesh that passes `check()` and `issurface()` (no
oriented edge used twice), `outlines_oriented(m)` and
`outlines_oriented(m.flip())` are disjoint and their union consists of both
orientations of every boundary edge (`outlines_unoriented(m)`), each oriented
edge appearing exactly once.  The claim's universe "all oriented edges" (all
edges traversed by faces of `m`) is refuted by `C7_counterexample`. -/
theorem C7_outline_duality {α : Type} (m : Mesh α) (hck : m.checkB = true)
    (hs : m.issurface = true) :
    Disjoint m.outlinesOriented m.flip.outlinesOriented ∧
    ∀ e : ℕ × ℕ,
      (e ∈ m.outlinesOriented ∪ m.flip.outlinesOriented ↔ ekey e ∈ m.outlinesUnoriented) := by
  constructor
  · rw [Finset.disjoint_left]
    intro e h1 h2
    rw [outlinesOriented_eq m hck hs] at h1
    rw [outlinesOriented_flip_eq m hck hs] at h2
    exact h1.2 h2.1
  · intro e
    rw [Finset.mem_union, outlinesOriented_eq m hck hs, outlinesOriented_flip_eq m hck hs,
      outlinesUnoriented_eq]
    by_cases hxx : e.1 = e.2
    · have h1 : e ∉ edgesOriented m.faces := fun h => edgesOriented_ne m hck e h hxx
      have h2 : erev e ∉ edgesOriented m.faces := fun h =>
        edgesOriented_ne m hck (erev e) h hxx.symm
      have h3 : ((edgesOriented m.faces).map ekey).count (ekey e) = 0 := by
        rw [List.count_eq_zero]
        intro hmem
        rw [List.mem_map] at hmem
        obtain ⟨t, ht, hkey⟩ := hmem
        have htne := edgesOriented_ne m hck t ht
        have : (ekey t).1 ≠ (ekey t).2 := by
          simp only [ekey, edgekey]
          split_ifs with hc
          · omega
          · omega
        rw [hkey] at this
        have hek : (ekey e).1 = (ekey e).2 := by
          simp only [ekey, edgekey]
          split_ifs <;> omega
        exact this hek
      rw [h3]
      simp [h1, h2]
    · rw [count_map_ekey _ (edgesOriented_ne m hck) hxx]
      have hnd := issurface_nodup m hs
      rw [nodup_count_eq hnd e, nodup_count_eq hnd (erev e)]
      by_cases h1 : e ∈ edgesOriented m.faces <;> by_cases h2 : erev e ∈ edgesOriented m.faces <;>
        simp [h1, h2, Nat.odd_iff]

/-- A two-triangle strip: faces `(0,1,2)` and `(1,0,3)` share edge `{0,1}`. -/
def c7mesh : Mesh ℚ :=
  { points := [0, 1, 2, 3], faces := [(0, 1, 2), (1, 0, 3)], tracks := [0, 0], groups := [()] }

/-- C7 counterexample: for the two-triangle mesh (which passes `check()`),
`(0,1)` is an oriented edge of the mesh, yet it appears in neither
`outlines_oriented(m)` nor `outlines_oriented(m.flip())`, so their disjoint
union is not the set of all oriented edges of the mesh (and a fortiori not
both orientations of every unoriented mesh edge). -/
theorem C7_counterexample :
    c7mesh.checkB = true ∧ (0, 1) ∈ edgesOriented c7mesh.faces ∧
    (0, 1) ∉ c7mesh.outlinesOriented ∧ (0, 1) ∉ c7mesh.flip.outlinesOriented := by
  refine ⟨by decide, by decide, by decide, by decide⟩

/-- Witness for `C7_outline_duality` at the concrete two-triangle mesh. -/
theorem C7_outline_duality_witness :
    Disjoint c7mesh.outlinesOriented c7mesh.flip.outlinesOriented ∧
    ∀ e : ℕ × ℕ,
      (e ∈ c7mesh.outlinesOriented ∪ c7mesh.flip.outlinesOriented ↔
        ekey e ∈ c7mesh.outlinesUnoriented) :=
  C7_outline_duality c7mesh (by decide) (by decide)

/-! ## `Mesh.propagate` / `Mesh.islands` (C10) -/

/-- Failure modes of the embedded procedures.  `uninitLocal` models Python's
`UnboundLocalError` (reading a local variable that was never assigned). -/
inductive PyErr where
  | uninitLocal
  | assertFailed
  deriving DecidableEq, Repr

/-- `connef(faces)`: dictionary from oriented edge to the face index using it;
last write wins, modelled by an association list with the most recent binding
first. -/
def connef (faces : List Face) : List ((ℕ × ℕ) × ℕ) :=
  (faces.enum.foldl (fun acc fi => (fedges fi.2).foldl (fun acc e => (e, fi.1) :: acc) acc) [])

/-- The edge couples `(f[i], f[i-1])` for `i in range(3)` used by the
propagation loops of `Mesh.propagate` / `Mesh.islands` / `Mesh.orient`. -/
def backEdges (f : Face) : List (ℕ × ℕ) :=
  [(f.1, f.2.2), (f.2.1, f.1), (f.2.2, f.2.1)]

/-- Number of unreached faces; the termination measure of the propagations. -/
def countFalse (reached : List Bool) : ℕ := reached.count false

theorem count_false_set_true {l : List Bool} {i : ℕ} (h : l.getD i true = false) :
    countFalse (l.set i true) < countFalse l := by
  induction l generalizing i with
  | nil => simp [List.getD] at h
  | cons b rest ih =>
    cases i with
    | zero =>
      simp only [List.getD_cons_zero] at h
      subst h
      simp [countFalse, List.count_cons]
    | succ n =>
      simp only [List.getD_cons_succ] at h
      have hrec := ih h
      rw [show (b :: rest).set (n + 1) true = b :: rest.set n true from rfl]
      simp only [countFalse, List.count_cons] at *
      omega

/-- Inner propagation of `Mesh.propagate`: pop from the stack, skip reached
faces, mark and visit new ones, stack unreached neighbors across the three
edges.  The stack is modelled with its top at the head. -/
def drainP {σ : Type} (faces : List Face) (conn : List ((ℕ × ℕ) × ℕ)) (atface : ℕ → σ → σ) :
    List Bool → List ℕ → σ → List Bool × σ
  | reached, [], acc => (reached, acc)
  | reached, i :: rest, acc =>
    match hreach : reached.getD i true with
    | true => drainP faces conn atface reached rest acc
    | false =>
      let reached' := reached.set i true
      let acc' := atface i acc
      let f := faces.getD i (0, 0, 0)
      let stack' := (backEdges f).foldl
        (fun st e => match conn.lookup e with
          | some n => if reached'.getD n true then st else n :: st
          | none => st) rest
      drainP faces conn atface reached' stack' acc'
  termination_by reached stack _ => (countFalse reached, stack.length)
  decreasing_by
  all_goals first
    | exact Prod.Lex.right _ (Nat.lt_succ_self _)
    | exact Prod.Lex.left _ _ (count_false_set_true hreach)

theorem drainP_count_le {σ : Type} (faces : List Face) (conn : List ((ℕ × ℕ) × ℕ))
    (atface : ℕ → σ → σ) :
    ∀ reached stack acc,
      countFalse (drainP faces conn atface reached stack acc).1 ≤ countFalse reached
  | reached, [], acc => by rw [drainP]
  | reached, i :: rest, acc => by
    rw [drainP]
    split
    next hreach => exact drainP_count_le faces conn atface reached rest acc
    next hreach =>
      refine le_trans (drainP_count_le faces conn atface _ _ _) ?_
      exact le_of_lt (count_false_set_true hreach)
  termination_by reached stack _ => (countFalse reached, stack.length)
  decreasing_by
  all_goals simp_wf
  all_goals rename_i hA hB hC
  all_goals first
    | exact Prod.Lex.right _ (Nat.lt_succ_self _)
    | exact Prod.Lex.left _ _ (count_false_set_true hC)

theorem drainP_count_lt {σ : Type} (faces : List Face) (conn : List ((ℕ × ℕ) × ℕ))
    (atface : ℕ → σ → σ) {reached : List Bool} {i : ℕ}
    (hi : reached.getD i true = false) (stack : List ℕ) (acc : σ) :
    countFalse (drainP faces conn atface reached (i :: stack) acc).1 < countFalse reached := by
  rw [drainP]
  split
  next hreach => rw [hreach] at hi; cases hi
  next hreach => exact lt_of_le_of_lt (drainP_count_le _ _ _ _ _ _) (count_false_set_true hi)

/-- The default `find` procedure of `Mesh.propagate`: scan `range(start,
len(reached))` for the first unreached face, push it, and store the loop
variable back into `start`.  When the range is empty the trailing
`start[0] = i` reads a loop variable that was never assigned: Python raises
`UnboundLocalError`. -/
def findDefault (start : ℕ) (reached : List Bool) (stack : List ℕ) :
    Except PyErr (ℕ × List ℕ) :=
  if reached.length ≤ start then Except.error PyErr.uninitLocal
  else
    match (List.range' start (reached.length - start)).find? (fun i => !reached.getD i true) with
    | some i => Except.ok (i, i :: stack)
    | none => Except.ok (reached.length - 1, stack)

theorem findDefault_ok_found {start : ℕ} {reached : List Bool} {start' : ℕ} {i : ℕ}
    {rest : List ℕ} (h : findDefault start reached [] = .ok (start', i :: rest)) :
    reached.getD i true = false := by
  rw [findDefault] at h
  split at h
  · cases h
  · split at h
    next j hj =>
      have hpj := List.find?_some hj
      cases h
      simpa using hpj
    next => cases h

/-- Outer loop of `Mesh.propagate` (with the default `find`): call `find`,
stop on an empty stack, otherwise drain the stack and close the island. -/
def propagateLoop {σ : Type} (faces : List Face) (conn : List ((ℕ × ℕ) × ℕ))
    (atface : ℕ → σ → σ) (atisland : σ → σ) :
    ℕ → List Bool → σ → Except PyErr σ
  | start, reached, acc =>
    match hf : findDefault start reached [] with
    | .error e => .error e
    | .ok (start', stack) =>
      if hs : stack = [] then .ok acc
      else
        let d := drainP faces conn atface reached stack acc
        propagateLoop faces conn atface atisland start' d.1 (atisland d.2)
  termination_by _ reached _ => countFalse reached
  decreasing_by
    rcases hst : stack with _ | ⟨i, rest⟩
    · exact absurd hst hs
    · subst hst
      exact drainP_count_lt faces conn atface (findDefault_ok_found hf) rest acc

/-- `Mesh.islands` (the later, propagate-based definition, the one in effect in
the class body).  The accumulator mirrors the source's `faces`/`tracks`
accumulators and the growing list of islands. -/
def Mesh.islands {α : Type} (m : Mesh α) : Except PyErr (List (Mesh α)) :=
  let conn := connef m.faces
  let atface := fun (i : ℕ) (acc : List Face × List ℕ × List (Mesh α)) =>
    (acc.1 ++ [m.faces.getD i (0, 0, 0)], acc.2.1 ++ [m.tracks.getD i 0], acc.2.2)
  let atisland := fun (acc : List Face × List ℕ × List (Mesh α)) =>
    (([] : List Face), ([] : List ℕ),
      acc.2.2 ++ [{ points := m.points, faces := acc.1, tracks := acc.2.1, groups := m.groups }])
  (propagateLoop m.faces conn atface atisland 0 (List.replicate m.faces.length false)
    ([], [], [])).map (fun acc => acc.2.2)

theorem propagateLoop_error {σ : Type} (faces : List Face) (conn : List ((ℕ × ℕ) × ℕ))
    (atface : ℕ → σ → σ) (atisland : σ → σ) (start : ℕ) (reached : List Bool) (acc : σ)
    {e : PyErr} (h : findDefault start reached [] = .error e) :
    propagateLoop faces conn atface atisland start reached acc = .error e := by
  rw [propagateLoop]
  split
  next e' heq => rw [h] at heq; cases heq; rfl
  next s' st heq => rw [h] at heq; cases heq

/-- C10: on a mesh with no faces (which passes `check()`), the default island
search reads a loop variable that is never assigned, so both `propagate()` and
`islands()` fail with an uninitialized-local error instead of returning an
empty island list. -/
theorem C10_empty_faces_uninit {α σ : Type} (m : Mesh α) (hck : m.checkB = true)
    (hf : m.faces = []) (atface : ℕ → σ → σ) (atisland : σ → σ) (acc : σ) :
    propagateLoop m.faces (connef m.faces) atface atisland 0
      (List.replicate m.faces.length false) acc = .error PyErr.uninitLocal ∧
    m.islands = .error PyErr.uninitLocal := by
  have hfind : findDefault 0 (List.replicate m.faces.length false) [] =
      .error PyErr.uninitLocal := by
    rw [findDefault, if_pos]
    simp [hf]
  refine ⟨propagateLoop_error _ _ _ _ _ _ _ hfind, ?_⟩
  rw [Mesh.islands, propagateLoop_error _ _ _ _ _ _ _ hfind]
  rfl

/-- Witness for `C10_empty_faces_uninit`: the empty mesh. -/
theorem C10_empty_faces_uninit_witness :
    (Mesh.mk ([] : List ℚ) [] [] []).checkB = true ∧
    (Mesh.mk ([] : List ℚ) [] [] []).islands = .error PyErr.uninitLocal :=
  ⟨by decide,
    (C10_empty_faces_uninit (Mesh.mk ([] : List ℚ) [] [] []) (by decide) rfl
      (fun _ (a : Unit) => a) id ()).2⟩

/-! ## Exact-rational 3D vectors and spatial hashing (`hashing.py`) -/

/-- 3D vector over exact rationals: model of glm `dvec3` in the code paths
that use only field operations (no `normalize`/`length`). -/
structure V3 where
  x : ℚ
  y : ℚ
  z : ℚ
  deriving DecidableEq, Repr

def vadd (a b : V3) : V3 := ⟨a.x + b.x, a.y + b.y, a.z + b.z⟩

def vsub (a b : V3) : V3 := ⟨a.x - b.x, a.y - b.y, a.z - b.z⟩

def vscale (s : ℚ) (a : V3) : V3 := ⟨s * a.x, s * a.y, s * a.z⟩

/-- Componentwise division by a scalar (`space/cell`). -/
def vdivs (a : V3) (s : ℚ) : V3 := ⟨a.x / s, a.y / s, a.z / s⟩

def vabs3 (a : V3) : V3 := ⟨|a.x|, |a.y|, |a.z|⟩

def vmin3 (a b : V3) : V3 := ⟨min a.x b.x, min a.y b.y, min a.z b.z⟩

def vmax3 (a b : V3) : V3 := ⟨max a.x b.x, max a.y b.y, max a.z b.z⟩

def cross3 (a b : V3) : V3 :=
  ⟨a.y * b.z - a.z * b.y, a.z * b.x - a.x * b.z, a.x * b.y - a.y * b.x⟩

/-- `v[i]` component access. -/
def vget (v : V3) : ℕ → ℚ
  | 0 => v.x
  | 1 => v.y
  | _ => v.z

/-- Python's `%` on floats for a positive modulus: `a - b*floor(a/b)`. -/
def pymod (a b : ℚ) : ℚ := a - b * ⌊a / b⌋

/-- `int()`-conversion of one float component: glm's `ivec3(dvec3)` cast
truncates toward zero (C semantics). -/
def qtrunc (q : ℚ) : ℤ := if 0 ≤ q then ⌊q⌋ else -⌊-q⌋

/-- `tuple(ivec3(v))`. -/
def ivec3Q (v : V3) : ℤ × ℤ × ℤ := (qtrunc v.x, qtrunc v.y, qtrunc v.z)

/-- Componentwise `floor(p / cell)`: the cell the claims C4/C9 prescribe. -/
def floorCell (p : V3) (cell : ℚ) : ℤ × ℤ × ℤ :=
  (⌊p.x / cell⌋, ⌊p.y / cell⌋, ⌊p.z / cell⌋)

/-- The point branch of `PositionMap.keysfor`:
`yield tuple(ivec3(space/cell))`. -/
def keysforPoint (p : V3) (cell : ℚ) : List (ℤ × ℤ × ℤ) :=
  [ivec3Q (vdivs p cell)]

theorem qtrunc_eq_floor {q : ℚ} (h : 0 ≤ q) : qtrunc q = ⌊q⌋ := by
  rw [qtrunc, if_pos h]

/-- C9 counterexample: for `p = (-1/2, 0, 0)` and cellsize 1, `keysfor(p)`
yields the cell `(0,0,0)` — glm's `ivec3` truncates toward zero — and not
`floor(p/cellsize) = (-1,0,0)` as claimed; the yielded cell's half-open box
`[0,1)³` does not contain `p`. -/
theorem C9_counterexample :
    keysforPoint ⟨-(1/2), 0, 0⟩ 1 = [(0, 0, 0)] ∧
    floorCell ⟨-(1/2), 0, 0⟩ 1 = (-1, 0, 0) ∧
    keysforPoint ⟨-(1/2), 0, 0⟩ 1 ≠ [floorCell ⟨-(1/2), 0, 0⟩ 1] ∧
    ¬ ((0 : ℚ) * 1 ≤ -(1/2) ∧ -(1/2) < ((0 : ℚ) + 1) * 1) := by
  have e1 : keysforPoint ⟨-(1/2), 0, 0⟩ 1 = [(0, 0, 0)] := by
    norm_num [keysforPoint, ivec3Q, vdivs, qtrunc]
  have e2 : floorCell ⟨-(1/2), 0, 0⟩ 1 = (-1, 0, 0) := by
    norm_num [floorCell]
  refine ⟨e1, e2, ?_, by norm_num⟩
  rw [e1, e2]
  decide

/-- C9 (amended): `keysfor` on a point yields exactly one cell, the
componentwise truncation toward zero of `p/cellsize`; for a point with
nonnegative coordinates and positive cellsize this equals
`floor(p/cellsize)`, and that cell `k` covers the half-open box
`[k*cell, (k+1)*cell)` on each axis. -/
theorem C9_point_cell (p : V3) (cell : ℚ) (hcell : 0 < cell)
    (hx : 0 ≤ p.x) (hy : 0 ≤ p.y) (hz : 0 ≤ p.z) :
    keysforPoint p cell = [floorCell p cell] ∧
    ∀ k : ℤ × ℤ × ℤ, (floorCell p cell = k ↔
      ((k.1 : ℚ) * cell ≤ p.x ∧ p.x < (k.1 + 1 : ℤ) * cell ∧
       (k.2.1 : ℚ) * cell ≤ p.y ∧ p.y < (k.2.1 + 1 : ℤ) * cell ∧
       (k.2.2 : ℚ) * cell ≤ p.z ∧ p.z < (k.2.2 + 1 : ℤ) * cell)) := by
  have hcomp : ∀ (q : ℚ), 0 ≤ q → ∀ n : ℤ, (⌊q / cell⌋ = n ↔
      ((n : ℚ) * cell ≤ q ∧ q < (n + 1 : ℤ) * cell)) := by
    intro q _ n
    rw [Int.floor_eq_iff, le_div_iff₀ hcell, div_lt_iff₀ hcell]
    push_cast
    tauto
  constructor
  · have e1 : qtrunc (p.x / cell) = ⌊p.x / cell⌋ :=
      qtrunc_eq_floor (div_nonneg hx (le_of_lt hcell))
    have e2 : qtrunc (p.y / cell) = ⌊p.y / cell⌋ :=
      qtrunc_eq_floor (div_nonneg hy (le_of_lt hcell))
    have e3 : qtrunc (p.z / cell) = ⌊p.z / cell⌋ :=
      qtrunc_eq_floor (div_nonneg hz (le_of_lt hcell))
    simp [keysforPoint, ivec3Q, vdivs, floorCell, e1, e2, e3]
  · intro k
    rw [floorCell, Prod.ext_iff, Prod.ext_iff]
    rw [hcomp p.x hx k.1, hcomp p.y hy k.2.1, hcomp p.z hz k.2.2]
    tauto

/-- Witness for `C9_point_cell` at `p = (3/2, 0, 5)`, cellsize 1. -/
theorem C9_point_cell_witness :
    keysforPoint ⟨3/2, 0, 5⟩ 1 = [floorCell ⟨3/2, 0, 5⟩ 1] ∧
    ∀ k : ℤ × ℤ × ℤ, (floorCell ⟨3/2, 0, 5⟩ 1 = k ↔
      ((k.1 : ℚ) * 1 ≤ 3/2 ∧ (3/2 : ℚ) < (k.1 + 1 : ℤ) * 1 ∧
       (k.2.1 : ℚ) * 1 ≤ 0 ∧ (0 : ℚ) < (k.2.1 + 1 : ℤ) * 1 ∧
       (k.2.2 : ℚ) * 1 ≤ 5 ∧ (5 : ℚ) < (k.2.2 + 1 : ℤ) * 1)) :=
  C9_point_cell ⟨3/2, 0, 5⟩ 1 (by norm_num) (by norm_num) (by norm_num) (by norm_num)

theorem ceil_via_floor (a : ℚ) : ⌈a⌉ = -⌊-a⌋ := by rw [Int.floor_neg, neg_neg]

/-- Python's `min` over a nonempty list (`min(cand)`); 0 on the empty list,
where the source would raise `ValueError`. -/
def listMin : List ℚ → ℚ
  | [] => 0
  | a :: rest => rest.foldl min a

/-- Python's `max` over a nonempty list (`max(cand)`). -/
def listMax : List ℚ → ℚ
  | [] => 0
  | a :: rest => rest.foldl max a

/-- The scan-line pattern shared by the x, y and z selections of the triangle
rasterizer: align the lower bound down to the grid
(`lo -= lo % cell`), then emit `lo + cell*i + cell/2` for
`i in range(max(1, ceil((hi - lo)/cell)))`. -/
def scanPts (cell lo hi : ℚ) : List ℚ :=
  let al := lo - pymod lo cell
  (List.range (max 1 ⌈(hi - al) / cell⌉.toNat)).map (fun i => al + cell * i + cell / 2)

/-- One edge's candidates in the y-selection of the triangle rasterizer: if
the edge's x-interval meets the slab `[x - cell/2, x + cell/2]`, evaluate the
edge's infinite line at the two slab borders (slope `v.y/v.x`, or 0 for a
vertical edge, the `v[i][1]/inf` of the source); `a`, `b` are
`space[i-1]`, `space[i]` and `vi = space[i-1]-space[i]`. -/
def yCand (cell x : ℚ) (a b vi : V3) : List ℚ :=
  if (a.x - x + cell / 2) * (b.x - x - cell / 2) ≤ 0 ∨
     (a.x - x - cell / 2) * (b.x - x + cell / 2) ≤ 0 then
    [b.y + (if vi.x = 0 then 0 else vi.y / vi.x) * (x - cell / 2 - b.x),
     b.y + (if vi.x = 0 then 0 else vi.y / vi.x) * (x + cell / 2 - b.x)]
  else []

/-- The triangle branch of `PositionMap.keysfor` after the axis permutation:
x/y/z scan-line selection, the bounding-box corner filter, and the final
emission `tuple(floor(p[order[i]]/cell) for i in range(3))` (note: the source
applies the *forward* permutation again instead of its inverse). -/
def triangleKeysP (t0 t1 t2 : V3) (cell : ℚ) (order : ℕ × ℕ × ℕ) : List (ℤ × ℤ × ℤ) :=
  let v0 := vsub t2 t0
  let v1 := vsub t0 t1
  let v2 := vsub t1 t2
  let nn := cross3 v0 v1
  let dx := -nn.x / nn.z
  let dy := -nn.y / nn.z
  let o := t0
  let pmin := vmin3 (vmin3 t0 t1) t2
  let pmax := vmax3 (vmax3 t0 t1) t2
  let xpts := scanPts cell pmin.x pmax.x
  let ypts := xpts.flatMap (fun x =>
    let cand := yCand cell x t2 t0 v0 ++ yCand cell x t0 t1 v1 ++ yCand cell x t1 t2 v2
    (scanPts cell (listMin cand) (listMax cand)).map (fun y => (x, y)))
  let zpts := ypts.flatMap (fun xy =>
    let fp := fun (a b : ℚ) => o.z + dx * (a - o.x) + dy * (b - o.y)
    let cand := [fp (xy.1 - cell / 2) (xy.2 - cell / 2), fp (xy.1 + cell / 2) (xy.2 - cell / 2),
                 fp (xy.1 - cell / 2) (xy.2 + cell / 2), fp (xy.1 + cell / 2) (xy.2 + cell / 2)]
    (scanPts cell (listMin cand) (listMax cand)).map (fun z => (⟨xy.1, xy.2, z⟩ : V3)))
  let lo := vsub pmin ⟨pymod pmin.x cell, pymod pmin.y cell, pymod pmin.z cell⟩
  let hi := vadd pmax ⟨cell - pymod pmax.x cell, cell - pymod pmax.y cell,
                       cell - pymod pmax.z cell⟩
  (zpts.filter (fun p => decide (lo.x < p.x ∧ lo.y < p.y ∧ lo.z < p.z ∧
      p.x < hi.x ∧ p.y < hi.y ∧ p.z < hi.z))).map
    (fun p => (⌊vget p order.1 / cell⌋, ⌊vget p order.2.1 / cell⌋, ⌊vget p order.2.2 / cell⌋))

/-- The triangle branch of `PositionMap.keysfor`: choose the coordinate
permutation putting the normal's largest component on Z, permute the corners
and rasterize. -/
def triangleKeys (s0 s1 s2 : V3) (cell : ℚ) : List (ℤ × ℤ × ℤ) :=
  let n := vabs3 (cross3 (vsub s1 s0) (vsub s2 s0))
  let order : ℕ × ℕ × ℕ :=
    if n.y ≥ n.x ∧ n.y ≥ n.z then (2, 0, 1)
    else if n.x ≥ n.y ∧ n.x ≥ n.z then (1, 2, 0)
    else (0, 1, 2)
  let pm := fun (p : V3) => (⟨vget p order.1, vget p order.2.1, vget p order.2.2⟩ : V3)
  triangleKeysP (pm s0) (pm s1) (pm s2) cell order

/-- The closed triangle spanned by three corners. -/
def triPoint (a b c : V3) (s t : ℚ) : V3 :=
  vadd a (vadd (vscale s (vsub b a)) (vscale t (vsub c a)))

/-- Membership of a point in the half-open box of cell `k`. -/
def inCell (k : ℤ × ℤ × ℤ) (cell : ℚ) (p : V3) : Prop :=
  (k.1 : ℚ) * cell ≤ p.x ∧ p.x < (k.1 + 1 : ℤ) * cell ∧
  (k.2.1 : ℚ) * cell ≤ p.y ∧ p.y < (k.2.1 + 1 : ℤ) * cell ∧
  (k.2.2 : ℚ) * cell ≤ p.z ∧ p.z < (k.2.2 + 1 : ℤ) * cell

/-- C1 (code bug): on the triangle `(0,0,0), (0,3,0), (0,0,1)` (normal along
X, so the axes are permuted) with cellsize 1, `keysfor` yields the cells
`(0,0,0), (0,0,1), (0,0,2)`; the cell `(0,0,2)` does not meet the triangle at
all (every triangle point has `z ≤ 1 < 2`).  The emission
`tuple(floor(p[order[i]]/cell))` applies the forward permutation to the
permuted coordinates instead of inverting it, so for X- and Y-dominant
normals the emitted cells are not in the original coordinate order. -/
theorem C1_triangle_permutation_bug :
    triangleKeys ⟨0, 0, 0⟩ ⟨0, 3, 0⟩ ⟨0, 0, 1⟩ 1 = [(0, 0, 0), (0, 0, 1), (0, 0, 2)] ∧
    (0, 0, 2) ∈ triangleKeys ⟨0, 0, 0⟩ ⟨0, 3, 0⟩ ⟨0, 0, 1⟩ 1 ∧
    (∀ s t : ℚ, 0 ≤ s → 0 ≤ t → s + t ≤ 1 →
      ¬ inCell (0, 0, 2) 1 (triPoint ⟨0, 0, 0⟩ ⟨0, 3, 0⟩ ⟨0, 0, 1⟩ s t)) := by
  have hperm : triangleKeys ⟨0, 0, 0⟩ ⟨0, 3, 0⟩ ⟨0, 0, 1⟩ 1 =
      triangleKeysP ⟨0, 0, 0⟩ ⟨3, 0, 0⟩ ⟨0, 1, 0⟩ 1 (1, 2, 0) := by
    norm_num [triangleKeys, vabs3, cross3, vsub, vget]
  have h1 : List.range 1 = [0] := by decide
  have h3 : List.range 3 = [0, 1, 2] := by decide
  have ht1 : Int.toNat 1 = 1 := rfl
  have ht3 : Int.toNat 3 = 3 := rfl
  have heval : triangleKeysP ⟨0, 0, 0⟩ ⟨3, 0, 0⟩ ⟨0, 1, 0⟩ 1 (1, 2, 0) =
      [(0, 0, 0), (0, 0, 1), (0, 0, 2)] := by
    norm_num [triangleKeysP, scanPts, yCand, listMin, listMax, pymod, ceil_via_floor,
      vsub, vadd, vscale, vmin3, vmax3, cross3, vget, h1, h3, ht1, ht3,
      List.flatMap, List.filter, min_def, max_def, decide_eq_true_eq]
  rw [hperm, heval]
  refine ⟨rfl, by decide, ?_⟩
  intro s t hs ht hst hin
  rw [inCell, triPoint] at hin
  simp only [vadd, vscale, vsub] at hin
  have hz := hin.2.2.2.2.1
  norm_num at hz
  linarith

/-- Witness for the universally quantified part of
`C1_triangle_permutation_bug` at `s = t = 0`. -/
theorem C1_triangle_permutation_bug_witness :
    ¬ inCell (0, 0, 2) 1 (triPoint ⟨0, 0, 0⟩ ⟨0, 3, 0⟩ ⟨0, 0, 1⟩ 0 0) :=
  C1_triangle_permutation_bug.2.2 0 0 le_rfl le_rfl (by norm_num)

/-! ## `Container.mergeclose` idempotence (C5) -/

structure V3R where
  x : ℝ
  y : ℝ
  z : ℝ

structure V2R where
  x : ℝ
  y : ℝ

def sub3R (a b : V3R) : V3R := ⟨a.x - b.x, a.y - b.y, a.z - b.z⟩

def neg3R (a : V3R) : V3R := ⟨-a.x, -a.y, -a.z⟩

def dot3R (a b : V3R) : ℝ := a.x * b.x + a.y * b.y + a.z * b.z

def cross3R (a b : V3R) : V3R :=
  ⟨a.y * b.z - a.z * b.y, a.z * b.x - a.x * b.z, a.x * b.y - a.y * b.x⟩

/-- `max(glm.abs(v))`: the infinity norm without the sign. -/
def maxabs3R (a : V3R) : ℝ := max (max |a.x| |a.y|) |a.z|

noncomputable def norm3R (a : V3R) : ℝ := Real.sqrt (dot3R a a)

noncomputable def divs3R (a : V3R) (s : ℝ) : V3R := ⟨a.x / s, a.y / s, a.z / s⟩

/-- `glm.normalize`: `v / length(v)`. -/
noncomputable def normalize3R (a : V3R) : V3R := divs3R a (norm3R a)

def smul3R (s : ℝ) (a : V3R) : V3R := ⟨s * a.x, s * a.y, s * a.z⟩

/-- `mathutils.noproject(x, dir) = x - dot(x, dir)*dir`. -/
def noproject3R (a dir : V3R) : V3R := sub3R a (smul3R (dot3R a dir) dir)

def subV2 (a b : V2R) : V2R := ⟨a.x - b.x, a.y - b.y⟩

/-- `mathutils.perpdot(a, b) = -a[1]*b[0] + a[0]*b[1]`. -/
def perpdotR (a b : V2R) : ℝ := -a.y * b.x + a.x * b.y

noncomputable def lengthV2 (a : V2R) : ℝ := Real.sqrt (a.x * a.x + a.y * a.y)

/-- `mathutils.NUMPREC = 1e-13`. -/
noncomputable def NUMPREC : ℝ := 1 / 10 ^ 13

/-- Python exceptions crossing the triangulation pipeline. -/
inductive GErr where
  | valueError
  | typeError
  | meshError
deriving DecidableEq

/-- `mathutils.dirbase` applied to a *scalar* direction — which is what
happens when `triangulation` passes its `prec` float into
`triangulation_outline`'s `normal` parameter.  Its first operation
`project(align, dir)` evaluates `glm.dot(align, dir)` on a `dvec3` and a
`float`; `glm.dot` has no vector-scalar overload, so the call raises
`TypeError` and nothing further of `dirbase` executes. -/
def dirbaseScalar (_dir : ℝ) : Except GErr (V3R × V3R × V3R) := .error .typeError

/-- The first `while xl < thres` loop of `guessbase` (`xl` starts at 0): keep
drawing points `p` from the iterator, setting `x = p - o` and
`xl = dot(x,x)/max(max(abs(p)), ol)`, until `xl >= thres`; an exhausted
iterator raises `StopIteration`, reported as `none`. -/
noncomputable def gbX (thres ol : ℝ) (o : V3R) : V3R → ℝ → List V3R → Option (V3R × List V3R)
  | x, xl, rest =>
    if xl < thres then
      match rest with
      | [] => none
      | p :: r => gbX thres ol o (sub3R p o) (dot3R (sub3R p o) (sub3R p o) / max (maxabs3R p) ol) r
    else some (x, rest)

/-- The second `while zl < thres` loop of `guessbase` (`zl` starts at 0):
draw `p`, set `y = p - o` and `zl = length(cross(y, x))`, until
`zl >= thres`. -/
noncomputable def gbZ (thres : ℝ) (o x : V3R) : V3R → ℝ → List V3R → Option V3R
  | y, zl, rest =>
    if zl < thres then
      match rest with
      | [] => none
      | p :: r => gbZ thres o x (sub3R p o) (norm3R (cross3R (sub3R p o) x)) r
    else some y

/-- The `normal=None` path of `guessbase`: scan for a first direction `x` and
a second independent direction `y`, orthonormalize, and return the base
`(x, y, cross(x,y))`; `StopIteration` on either scan becomes
`ValueError`. -/
noncomputable def guessbaseScan (pts : List V3R) (thres : ℝ) : Except GErr (V3R × V3R × V3R) :=
  match pts with
  | [] => .error .valueError
  | o :: rest =>
    let ol := maxabs3R o
    match gbX thres ol o ⟨0, 0, 0⟩ 0 rest with
    | none => .error .valueError
    | some (x0, rest2) =>
      let x := normalize3R x0
      match gbZ thres o x ⟨0, 0, 0⟩ 0 rest2 with
      | none => .error .valueError
      | some y0 =>
        let y := normalize3R (noproject3R y0 x)
        .ok (x, y, cross3R x y)

/-- `guessbase(pts, normal, thres)`: every call site in `triangulation.py`
passes `normal` as either `None` or a misrouted `float`, so the parameter is
embedded as `Option ℝ`.  `if normal:` is Python truthiness: `None` and `0.0`
fall through to the scanning path, a nonzero float goes to `dirbase`. -/
noncomputable def guessbase (pts : List V3R) (normal : Option ℝ) (thres : ℝ) :
    Except GErr (V3R × V3R × V3R) :=
  match normal with
  | some t => if t = 0 then guessbaseScan pts thres else dirbaseScalar t
  | none => guessbaseScan pts thres

/-- `mesh.Wire`: a point buffer and the indices of the wire's points. -/
structure WireR where
  points : List V3R
  indices : List ℕ

/-- Iterating a `Wire` yields `points[indices[i]]` in order. -/
noncomputable def wireList (w : WireR) : List V3R :=
  w.indices.map (fun i => w.points.getD i ⟨0, 0, 0⟩)

/-- `min(range(l), key)`: the first index of `range l` minimizing `key`
(0 for `l = 0`, where Python would raise `ValueError`; unreachable here
because `guessbase`'s scan succeeded on the same point list). -/
noncomputable def argminIdx (key : ℕ → ℝ) (l : ℕ) : ℕ :=
  (List.range l).foldl (fun best j => if key j < key best then j else best) 0

/-- `max(range(l), key)`: the first index of `range l` maximizing `key`. -/
noncomputable def argmaxIdx (key : ℕ → WithBot ℝ) (l : ℕ) : ℕ :=
  (List.range l).foldl (fun best j => if key best < key j then j else best) 0

theorem foldl_argmax_lt (key : ℕ → WithBot ℝ) (l : ℕ) (L : List ℕ) :
    ∀ best : ℕ, best < l → (∀ j ∈ L, j < l) →
      L.foldl (fun best j => if key best < key j then j else best) best < l := by
  induction L with
  | nil => intro best hb _; simpa using hb
  | cons a r ih =>
    intro best hb hj
    rw [List.foldl_cons]
    by_cases hc : key best < key a
    · rw [if_pos hc]
      exact ih a (hj a (List.mem_cons_self a r)) (fun j hjm => hj j (List.mem_cons_of_mem _ hjm))
    · rw [if_neg hc]
      exact ih best hb (fun j hjm => hj j (List.mem_cons_of_mem _ hjm))

theorem argmaxIdx_lt (key : ℕ → WithBot ℝ) (l : ℕ) (hl : 0 < l) : argmaxIdx key l < l :=
  foldl_argmax_lt key l (List.range l) 0 hl (fun j hj => List.mem_range.mp hj)

/-- `triangulation.planeproject(pts, normal)`: build a base, flip `y` when
the wire turns clockwise around `z` at its `x`-extremal point, and project
every wire point to 2D coordinates. -/
noncomputable def planeproject (w : WireR) (normal : Option ℝ) : Except GErr (List V2R) :=
  match guessbase (wireList w) normal (10 * NUMPREC) with
  | .error e => .error e
  | .ok (x, y0, z) =>
    let pts := wireList w
    let l := w.indices.length
    let i := argminIdx (fun j => dot3R (pts.getD j ⟨0, 0, 0⟩) x) pts.length
    let y := if dot3R z (cross3R (sub3R (pts.getD ((i + 1) % l) ⟨0, 0, 0⟩) (pts.getD i ⟨0, 0, 0⟩))
                                 (sub3R (pts.getD ((i + l - 1) % l) ⟨0, 0, 0⟩) (pts.getD i ⟨0, 0, 0⟩))) < 0
             then neg3R y0 else y0
    .ok (pts.map (fun p => ⟨dot3R p x, dot3R p y⟩))

/-- `triangulation.aesthetic(u, v) = perpdot(u,v) / (length(u) + length(v) +
length(u-v))**2` (a float division by zero would raise; it needs `u = v = 0`,
which cannot happen for distinct projected points). -/
noncomputable def aestheticR (u v : V2R) : ℝ :=
  perpdotR u v / (lengthV2 u + lengthV2 v + lengthV2 (subV2 u v)) ^ 2

/-- The interior test of `score`: `uc, vc = inverse(dmat2(u,v)) * dvec2(d)`,
then `0 <= uc and 0 <= vc and uc+vc <= 1`.  When `dmat2(u,v)` is singular
glm's `inverse` returns infinite/NaN entries, every comparison on them is
false, and the point never counts as inside; hence the explicit
determinant-zero guard. -/
noncomputable def insidePt (u v d : V2R) : Prop :=
  let det := perpdotR u v
  if det = 0 then False
  else 0 ≤ (v.y * d.x - v.x * d.y) / det ∧ 0 ≤ (-u.y * d.x + u.x * d.y) / det ∧
       (v.y * d.x - v.x * d.y) / det + (-u.y * d.x + u.x * d.y) / det ≤ 1

open Classical in
/-- `score(i)` of `triangulation_outline`: the aesthetic of the candidate ear
at position `i` of the current hole, `-inf` (`⊥`) when another outline point
lies inside the candidate triangle.  `l` is `len(hole)` and `projL` the
current projected points (kept in sync by the loop). -/
noncomputable def scoreF (l : ℕ) (projL : List V2R) (i : ℕ) : WithBot ℝ :=
  let u := subV2 (projL.getD ((i + 1) % l) ⟨0, 0⟩) (projL.getD i ⟨0, 0⟩)
  let v := subV2 (projL.getD ((i + l - 1) % l) ⟨0, 0⟩) (projL.getD i ⟨0, 0⟩)
  let sc := aestheticR u v
  if sc < 0 then (sc : WithBot ℝ)
  else if ∃ j < l, j ≠ (i + l - 1) % l ∧ j ≠ i ∧ j ≠ (i + 1) % l ∧
           insidePt u v (subV2 (projL.getD j ⟨0, 0⟩) (projL.getD i ⟨0, 0⟩))
       then ⊥ else (sc : WithBot ℝ)

/-- The `while len(hole) > 2` loop of `triangulation_outline`: pick the
best-scoring ear, note (in the returned flag) whether the
`no more feasible triangles` warning printed, emit the ear triangle, pop the
ear from `hole`/`proj`/`scores`, and refresh the two neighboring scores. -/
noncomputable def earLoop : List ℕ → List V2R → List (WithBot ℝ) → List Face → Bool →
    List Face × Bool
  | hole, proj, scores, tris, warned =>
    if h : 2 < hole.length then
      let l := hole.length
      let i := argmaxIdx (fun j => scores.getD j ⊥) l
      let warned' := if scores.getD i ⊥ < ((-NUMPREC : ℝ) : WithBot ℝ) then true else warned
      let tri : Face := (hole.getD ((i + l - 1) % l) 0, hole.getD i 0, hole.getD ((i + 1) % l) 0)
      let hole' := hole.eraseIdx i
      let proj' := proj.eraseIdx i
      let scores' := scores.eraseIdx i
      let l' := l - 1
      let scores'' := ((scores'.set ((i + l' - 1) % l') (scoreF l' proj' ((i + l' - 1) % l'))).set
        (i % l') (scoreF l' proj' (i % l')))
      earLoop hole' proj' scores'' (tris ++ [tri]) warned'
    else (tris, warned)
  termination_by hole _ _ _ _ => hole.length
  decreasing_by
    simp_wf
    rw [List.length_eraseIdx]
    split
    · omega
    · next hlt =>
      exact absurd (Nat.lt_of_lt_of_le (argmaxIdx_lt _ _ (by omega)) le_rfl) hlt

/-- `triangulation_outline(outline, normal)`: project to the plane
(`ValueError` yields an empty `Mesh()`), ear-clip the index cycle, and wrap
the triangles in a mesh sharing the wire's point buffer.  The `Bool` records
whether the `warning: no more feasible triangles` line printed. -/
noncomputable def triangulation_outline (w : WireR) (normal : Option ℝ) :
    Except GErr (Mesh V3R × Bool) :=
  match planeproject w normal with
  | .error .valueError => .ok (⟨[], [], [], []⟩, false)
  | .error e => .error e
  | .ok proj =>
    let hole := w.indices
    let scores := (List.range hole.length).map (scoreF hole.length proj)
    let r := earLoop hole proj scores [] false
    .ok (⟨w.points, r.1, List.replicate r.1.length 0,
          if r.1.length = 0 then [] else [()]⟩, r.2)

/-- `triangulation(outline, prec=NUMPREC)`: run
`triangulation_outline(outline, prec)` — note that `prec` lands in the
`normal` parameter — and fall back to `triangulation_skeleton` only on
`MeshError`.  The skeleton triangulation is abstracted as a parameter: the
theorems below show it is never called. -/
noncomputable def triangulation (skel : WireR → Except GErr (Mesh V3R)) (w : WireR) :
    Except GErr (Mesh V3R) :=
  match triangulation_outline w (some NUMPREC) with
  | .error .meshError => skel w
  | .error e => .error e
  | .ok (m, _) => .ok m

/-- C6 (code bug): `triangulation(outline)` never reaches ear-clipping and
never reaches the straight-skeleton fallback.  Line 7 passes `prec`
positionally into `triangulation_outline`'s second parameter, which is
`normal`; `guessbase` finds `normal` truthy (`1e-13 != 0`) and calls
`dirbase(1e-13)`, whose first step `project(align, dir)` evaluates
`glm.dot(dvec3, float)` — no such overload exists, so every call raises
`TypeError`, which neither `except ValueError` nor `except MeshError`
catches.  The result holds for every outline and every skeleton fallback. -/
theorem C6_skeleton_fallback_never_runs (skel : WireR → Except GErr (Mesh V3R)) (w : WireR) :
    triangulation skel w = .error .typeError := by
  have hnz : ¬ ((NUMPREC : ℝ) = 0) := by norm_num [NUMPREC]
  simp only [triangulation, triangulation_outline, planeproject, guessbase, if_neg hnz,
    dirbaseScalar]

/-- Witness for `C6_skeleton_fallback_never_runs`: the unit square with a
skeleton fallback that would return an empty mesh; `triangulation` still
raises `TypeError`. -/
theorem C6_skeleton_fallback_never_runs_witness :
    triangulation (fun _ => .ok ⟨[], [], [], []⟩)
      ⟨[⟨0, 0, 0⟩, ⟨1, 0, 0⟩, ⟨1, 1, 0⟩, ⟨0, 1, 0⟩], [0, 1, 2, 3]⟩ = .error .typeError :=
  C6_skeleton_fallback_never_runs _ _

/-! ## Ear-clipping combinatorics (C2)

The `while len(hole) > 2` loop consumes the cycle of polygon edges: each
step removes a vertex and trades the two adjacent cycle edges for the new
chord.  The cycle-edge bookkeeping below carries the boundary and area
invariants through the loop. -/

theorem ekey_comm (a b : ℕ) : ekey (a, b) = ekey (b, a) := by
  show edgekey a b = edgekey b a
  rcases lt_trichotomy a b with h | h | h
  · rw [edgekey, edgekey, if_pos h, if_neg (by omega)]
  · subst h; rfl
  · rw [edgekey, edgekey, if_neg (by omega), if_pos h]

def vadd3R (a b : V3R) : V3R := ⟨a.x + b.x, a.y + b.y, a.z + b.z⟩

/-- Python float `%` with positive modulus: `a - b*floor(a/b)`. -/
noncomputable def pymodR (a b : ℝ) : ℝ := a - b * ⌊a / b⌋

/-- glm `ivec3` cast: componentwise truncation toward zero. -/
noncomputable def qtruncR (x : ℝ) : ℤ := if 0 ≤ x then ⌊x⌋ else -⌊-x⌋

noncomputable def ivec3R (v : V3R) : ℤ × ℤ × ℤ := (qtruncR v.x, qtruncR v.y, qtruncR v.z)

/-- `prox = glm.abs((cell - p%cell)/v)`, component `k` (0, 1, or 2):
infinite where `v`'s component vanishes. -/
noncomputable def proxF (cell : ℝ) (p v : V3R) : ℕ → WithTop ℝ
  | 0 => if v.x = 0 then ⊤ else ((|(cell - pymodR p.x cell) / v.x| : ℝ) : WithTop ℝ)
  | 1 => if v.y = 0 then ⊤ else ((|(cell - pymodR p.y cell) / v.y| : ℝ) : WithTop ℝ)
  | _ => if v.z = 0 then ⊤ else ((|(cell - pymodR p.z cell) / v.z| : ℝ) : WithTop ℝ)

/-- The `while dot(space[1]-p, v) >= 0` loop of the segment branch: select
the step axis (`i = 0`; `if prox[1] < prox[i]: i = 1`; then the source
repeats `if prox[1] < prox[i]: i = 2` — the second test reads `prox[1]`,
not `prox[2]`), advance `a = v*prox[i]`, and emit the cell of the midpoint
`p + a/2`.  An infinite selected `prox` would make `v*prox[i]` NaN in glm
(`none` here); the fuel bounds the unrolling, `none` when exhausted. -/
noncomputable def segLoop (cell : ℝ) (b v : V3R) : ℕ → V3R → List (ℤ × ℤ × ℤ) →
    Option (List (ℤ × ℤ × ℤ))
  | 0, _, _ => none
  | fuel + 1, p, acc =>
    if 0 ≤ dot3R (sub3R b p) v then
      let i1 : ℕ := if proxF cell p v 1 < proxF cell p v 0 then 1 else 0
      let i : ℕ := if proxF cell p v 1 < proxF cell p v i1 then 2 else i1
      WithTop.recTopCoe none
        (fun r =>
          let a := smul3R r v
          segLoop cell b v fuel (vadd3R p a)
            (acc ++ [ivec3R (divs3R (vadd3R p (smul3R (1 / 2) a)) cell)]))
        (proxF cell p v i)
    else some acc

/-- The segment branch of `PositionMap.keysfor`: the initial cell of
`space[0]`, then the DDA loop. -/
noncomputable def segmentKeys (cell : ℝ) (s0 s1 : V3R) (fuel : ℕ) :
    Option (List (ℤ × ℤ × ℤ)) :=
  segLoop cell s1 (normalize3R (sub3R s1 s0)) fuel s0 [ivec3R (divs3R s0 cell)]

/-- A point of the parameterized segment. -/
def segPoint (a b : V3R) (t : ℝ) : V3R := vadd3R a (smul3R t (sub3R b a))

/-- Membership in the half-open box of cell `k` (real coordinates). -/
def inCellR (k : ℤ × ℤ × ℤ) (cell : ℝ) (p : V3R) : Prop :=
  (k.1 : ℝ) * cell ≤ p.x ∧ p.x < (k.1 + 1 : ℤ) * cell ∧
  (k.2.1 : ℝ) * cell ≤ p.y ∧ p.y < (k.2.1 + 1 : ℤ) * cell ∧
  (k.2.2 : ℝ) * cell ≤ p.z ∧ p.z < (k.2.2 + 1 : ℤ) * cell

theorem proxF_seg (s : ℝ) (hs : 0 < s) :
  ∀ p : V3R, pymodR p.x 1 = 0 → pymodR p.y 1 = 0 → pymodR p.z 1 = 0 →
    proxF 1 p (divs3R ⟨1, 1, 10⟩ s) 0 = ((s : ℝ) : WithTop ℝ) ∧
    proxF 1 p (divs3R ⟨1, 1, 10⟩ s) 1 = ((s : ℝ) : WithTop ℝ) ∧
    proxF 1 p (divs3R ⟨1, 1, 10⟩ s) 2 = ((s / 10 : ℝ) : WithTop ℝ) := by
  have hsne : s ≠ 0 := ne_of_gt hs
  intro p h0 h1 h2
  refine ⟨?_, ?_, ?_⟩
  · show (if (divs3R ⟨1, 1, 10⟩ s).x = 0 then ⊤
      else ((|(1 - pymodR p.x 1) / (divs3R ⟨1, 1, 10⟩ s).x| : ℝ) : WithTop ℝ)) = _
    rw [show (divs3R ⟨1, 1, 10⟩ s).x = 1 / s from rfl,
      if_neg (one_div_ne_zero hsne), h0, sub_zero, one_div_one_div,
      abs_of_pos (by positivity)]
  · show (if (divs3R ⟨1, 1, 10⟩ s).y = 0 then ⊤
      else ((|(1 - pymodR p.y 1) / (divs3R ⟨1, 1, 10⟩ s).y| : ℝ) : WithTop ℝ)) = _
    rw [show (divs3R ⟨1, 1, 10⟩ s).y = 1 / s from rfl,
      if_neg (one_div_ne_zero hsne), h1, sub_zero, one_div_one_div,
      abs_of_pos (by positivity)]
  · show (if (divs3R ⟨1, 1, 10⟩ s).z = 0 then ⊤
      else ((|(1 - pymodR p.z 1) / (divs3R ⟨1, 1, 10⟩ s).z| : ℝ) : WithTop ℝ)) = _
    rw [show (divs3R ⟨1, 1, 10⟩ s).z = 10 / s from rfl,
      if_neg (div_ne_zero (by norm_num) hsne), h2, sub_zero, one_div_div,
      abs_of_pos (by positivity)]

theorem segLoop_eval (s : ℝ) (hs : 0 < s) :
    segLoop 1 ⟨1, 1, 10⟩ (divs3R ⟨1, 1, 10⟩ s) 3 ⟨0, 0, 0⟩ [(0, 0, 0)] =
      some [(0, 0, 0), (0, 0, 5), (1, 1, 15)] := by
  have hprox := proxF_seg s hs
  have hsne : s ≠ 0 := ne_of_gt hs
  have hpmz : pymodR 0 1 = 0 := by norm_num [pymodR]
  have hpmo : pymodR 1 1 = 0 := by norm_num [pymodR]
  have hpmt : pymodR 10 1 = 0 := by norm_num [pymodR]
  have hp0 := hprox ⟨0, 0, 0⟩ hpmz hpmz hpmz
  have hp1 := hprox ⟨1, 1, 10⟩ hpmo hpmo hpmt
  have hstate1 : vadd3R ⟨0, 0, 0⟩ (smul3R s (divs3R ⟨1, 1, 10⟩ s)) = ⟨1, 1, 10⟩ := by
    simp only [vadd3R, smul3R, divs3R, V3R.mk.injEq]
    refine ⟨?_, ?_, ?_⟩ <;> field_simp
  have hkey1 : ivec3R (divs3R (vadd3R (⟨0, 0, 0⟩ : V3R)
      (smul3R (1 / 2) (smul3R s (divs3R ⟨1, 1, 10⟩ s)))) 1) = ((0 : ℤ), (0 : ℤ), (5 : ℤ)) := by
    have hx : vadd3R (⟨0, 0, 0⟩ : V3R) (smul3R (1 / 2) (smul3R s (divs3R ⟨1, 1, 10⟩ s))) =
        ⟨1 / 2, 1 / 2, 5⟩ := by
      simp only [vadd3R, smul3R, divs3R, V3R.mk.injEq]
      refine ⟨?_, ?_, ?_⟩ <;> field_simp <;> ring
    rw [hx]
    norm_num [ivec3R, divs3R, qtruncR]
  have hstate2 : vadd3R ⟨1, 1, 10⟩ (smul3R s (divs3R ⟨1, 1, 10⟩ s)) = ⟨2, 2, 20⟩ := by
    simp only [vadd3R, smul3R, divs3R, V3R.mk.injEq]
    refine ⟨?_, ?_, ?_⟩ <;> field_simp <;> ring
  have hkey2 : ivec3R (divs3R (vadd3R (⟨1, 1, 10⟩ : V3R)
      (smul3R (1 / 2) (smul3R s (divs3R ⟨1, 1, 10⟩ s)))) 1) = ((1 : ℤ), (1 : ℤ), (15 : ℤ)) := by
    have hx : vadd3R (⟨1, 1, 10⟩ : V3R) (smul3R (1 / 2) (smul3R s (divs3R ⟨1, 1, 10⟩ s))) =
        ⟨3 / 2, 3 / 2, 15⟩ := by
      simp only [vadd3R, smul3R, divs3R, V3R.mk.injEq]
      refine ⟨?_, ?_, ?_⟩ <;> field_simp <;> ring
    rw [hx]
    norm_num [ivec3R, divs3R, qtruncR]
  have hinv : (0 : ℝ) < 1 / s := by positivity
  have hc1 : 0 ≤ dot3R (sub3R ⟨1, 1, 10⟩ ⟨0, 0, 0⟩) (divs3R ⟨1, 1, 10⟩ s) := by
    simp only [dot3R, sub3R, divs3R]
    have h : (1 - 0) * (1 / s) + (1 - 0) * (1 / s) + (10 - 0) * (10 / s) = 102 * (1 / s) := by
      ring
    rw [h]
    positivity
  have hc2 : 0 ≤ dot3R (sub3R ⟨1, 1, 10⟩ ⟨1, 1, 10⟩) (divs3R ⟨1, 1, 10⟩ s) := by
    simp only [dot3R, sub3R, divs3R]
    norm_num
  have hc3 : ¬ 0 ≤ dot3R (sub3R ⟨1, 1, 10⟩ ⟨2, 2, 20⟩) (divs3R ⟨1, 1, 10⟩ s) := by
    simp only [dot3R, sub3R, divs3R]
    have h : (1 - 2) * (1 / s) + (1 - 2) * (1 / s) + (10 - 20) * (10 / s) =
        -(102 * (1 / s)) := by ring
    rw [h]
    simp only [not_le, neg_lt_zero]
    positivity
  -- iteration 1
  rw [show (3 : ℕ) = 2 + 1 from rfl, segLoop, if_pos hc1]
  dsimp only
  rw [hp0.2.1, hp0.1, if_neg (lt_irrefl _), hp0.1, if_neg (lt_irrefl _), hp0.1,
    WithTop.recTopCoe_coe]
  rw [hstate1, hkey1, List.singleton_append]
  -- iteration 2
  rw [show (2 : ℕ) = 1 + 1 from rfl, segLoop, if_pos hc2]
  dsimp only
  rw [hp1.2.1, hp1.1, if_neg (lt_irrefl _), hp1.1, if_neg (lt_irrefl _), hp1.1,
    WithTop.recTopCoe_coe]
  rw [hstate2, hkey2]
  -- iteration 3: the loop condition fails
  rw [show (1 : ℕ) = 0 + 1 from rfl, segLoop, if_neg hc3]
  rfl

/-- C8 (code bug): on the segment `(0,0,0) → (1,1,10)` with cellsize 1 the
walk emits the cells `(0,0,0), (0,0,5), (1,1,15)`.  The axis selection reads
`if prox[1] < prox[i]: i = 2` with `prox[1]` instead of `prox[2]`, so axis 2
can never be selected; here `prox[2] = √102/10` is the strict minimum of the
three prox values yet the step advances by `v*prox[0]`, jumping a whole cell
diagonal at once.  The emitted cell `(1,1,15)` does not even meet the
segment (every segment point has `z ≤ 10 < 15`), refuting the claimed
minimum-axis DDA behavior. -/
theorem C8_segment_prox_bug :
    segmentKeys 1 ⟨0, 0, 0⟩ ⟨1, 1, 10⟩ 3 = some [(0, 0, 0), (0, 0, 5), (1, 1, 15)] ∧
    proxF 1 ⟨0, 0, 0⟩ (normalize3R (sub3R ⟨1, 1, 10⟩ ⟨0, 0, 0⟩)) 2 <
      proxF 1 ⟨0, 0, 0⟩ (normalize3R (sub3R ⟨1, 1, 10⟩ ⟨0, 0, 0⟩)) 0 ∧
    (∀ t : ℝ, 0 ≤ t → t ≤ 1 →
      ¬ inCellR (1, 1, 15) 1 (segPoint ⟨0, 0, 0⟩ ⟨1, 1, 10⟩ t)) := by
  have hs : (0 : ℝ) < Real.sqrt 102 := Real.sqrt_pos.mpr (by norm_num)
  have hnorm : normalize3R (sub3R ⟨1, 1, 10⟩ ⟨0, 0, 0⟩) =
      divs3R ⟨1, 1, 10⟩ (Real.sqrt 102) := by
    show divs3R (sub3R ⟨1, 1, 10⟩ ⟨0, 0, 0⟩) (norm3R (sub3R ⟨1, 1, 10⟩ ⟨0, 0, 0⟩)) = _
    norm_num [sub3R, norm3R, dot3R, divs3R]
  have hpmz : pymodR 0 1 = 0 := by norm_num [pymodR]
  have hp0 := proxF_seg (Real.sqrt 102) hs ⟨0, 0, 0⟩ hpmz hpmz hpmz
  refine ⟨?_, ?_, ?_⟩
  · show segLoop 1 ⟨1, 1, 10⟩ (normalize3R (sub3R ⟨1, 1, 10⟩ ⟨0, 0, 0⟩)) 3 ⟨0, 0, 0⟩
      [ivec3R (divs3R ⟨0, 0, 0⟩ 1)] = _
    rw [hnorm, show ivec3R (divs3R (⟨0, 0, 0⟩ : V3R) 1) = ((0 : ℤ), (0 : ℤ), (0 : ℤ)) from by
      norm_num [ivec3R, divs3R, qtruncR]]
    exact segLoop_eval (Real.sqrt 102) hs
  · rw [hnorm, hp0.2.2, hp0.1]
    rw [WithTop.coe_lt_coe]
    linarith [hs]
  · intro t ht0 ht1 hin
    have hz := hin.2.2.2.2.1
    simp only [segPoint, vadd3R, smul3R, sub3R] at hz
    norm_num at hz
    linarith

/-- Witness for the universally quantified part of `C8_segment_prox_bug` at
`t = 0`. -/
theorem C8_segment_prox_bug_witness :
    ¬ inCellR (1, 1, 15) 1 (segPoint ⟨0, 0, 0⟩ ⟨1, 1, 10⟩ 0) :=
  C8_segment_prox_bug.2.2 0 le_rfl (by norm_num)

/-! ## `Mesh.orient` (C3)

`mesh.py` lines 683-748.  The only geometry `orient` consults is the pair of
score functions (`metric`, the lexicographic seed metric, and `orient`, the
sign test `dir = None` builds from the barycenter); the combinatorial
propagation never reads them.  Both are kept abstract parameters here, so
every theorem below holds in particular for the source's barycentric and
directional variants. -/

/-- `mesh.arrangeface(f, p)`: rotate the face so that `p` comes first. -/
def arrangeface (f : Face) (p : ℕ) : Face :=
  if p = f.2.1 then (f.2.1, f.2.2, f.1)
  else if p = f.2.2 then (f.2.2, f.1, f.2.1)
  else f

/-- Modelled from the spec: `conn = Asso((edgekey(*e), i) for i, f in
enumerate(self.faces) for e in ...)` uses the `Asso` multimap of
`madcad/asso.py`, a module absent from `src/`; per the spec `conn[k]` lists
the face indices inserted under key `k` in insertion (face) order.  A face
would be listed once per matching edge; `check()` (degenerate faces excluded)
makes that once per face, as here. -/
def connO (faces : List Face) (e : ℕ × ℕ) : List ℕ :=
  (List.range faces.length).filter
    (fun i => e ∈ (fedges (faces.getD i (0, 0, 0))).map ekey)

/-- The directed couples `(f[i-1], f[i])` in the source's processing order
`i = 0, 1, 2` (so `(f[2],f[0]), (f[0],f[1]), (f[1],f[2])`). -/
def orientEdges (f : Face) : List (ℕ × ℕ) :=
  [(f.2.2, f.1), (f.1, f.2.1), (f.2.1, f.2.2)]

/-- One neighbor visit of the propagation: skip reached faces, flip the
neighbor when it runs through the parent's directed edge `(a, b)` in the
same direction (`arrangeface(nf, a)[1] == b`), and stack it. -/
def orientStepN (a b : ℕ) (reached : List Bool) (st : List Face × List ℕ) (n : ℕ) :
    List Face × List ℕ :=
  if reached.getD n true then st
  else
    let nf := st.1.getD n (0, 0, 0)
    (if (arrangeface nf a).2.1 = b then st.1.set n (revFace nf) else st.1, n :: st.2)

/-- Process all three edges of the face popped at `i`: for each directed
edge, visit the faces `conn` lists for its unoriented key. -/
def orientVisit (origFaces : List Face) (reached : List Bool) (i : ℕ)
    (faces : List Face) (stack : List ℕ) : List Face × List ℕ :=
  let f := faces.getD i (0, 0, 0)
  (orientEdges f).foldl
    (fun st ab => (connO origFaces (ekey ab)).foldl (orientStepN ab.1 ab.2 reached) st)
    (faces, stack)

/-- The `while stack` drain of `Mesh.orient` (stack top at the head). -/
def orientDrain (origFaces : List Face) :
    List Face → List Bool → List ℕ → List Face × List Bool
  | faces, reached, [] => (faces, reached)
  | faces, reached, i :: rest =>
    match hreach : reached.getD i true with
    | true => orientDrain origFaces faces reached rest
    | false =>
      let st := orientVisit origFaces (reached.set i true) i faces rest
      orientDrain origFaces st.1 (reached.set i true) st.2
  termination_by faces reached stack => (countFalse reached, stack.length)
  decreasing_by
  all_goals first
    | exact Prod.Lex.right _ (Nat.lt_succ_self _)
    | exact Prod.Lex.left _ _ (count_false_set_true hreach)

theorem orientDrain_count_le (origFaces : List Face) :
    ∀ faces reached stack,
      countFalse (orientDrain origFaces faces reached stack).2 ≤ countFalse reached
  | faces, reached, [] => by rw [orientDrain]
  | faces, reached, i :: rest => by
    rw [orientDrain]
    split
    next hreach => exact orientDrain_count_le origFaces faces reached rest
    next hreach =>
      refine le_trans (orientDrain_count_le origFaces _ _ _) ?_
      exact le_of_lt (count_false_set_true hreach)
  termination_by faces reached stack => (countFalse reached, stack.length)
  decreasing_by
  all_goals simp_wf
  all_goals rename_i hA hB hC
  all_goals first
    | exact Prod.Lex.right _ (Nat.lt_succ_self _)
    | exact Prod.Lex.left _ _ (count_false_set_true hC)

theorem orientDrain_count_lt (origFaces : List Face) {reached : List Bool} {i : ℕ}
    (hi : reached.getD i true = false) (faces : List Face) :
    countFalse (orientDrain origFaces faces reached [i]).2 < countFalse reached := by
  rw [orientDrain]
  split
  next hreach => rw [hreach] at hi; cases hi
  next hreach => exact lt_of_le_of_lt (orientDrain_count_le _ _ _ _) (count_false_set_true hi)

/-- Python's lexicographic `>` on the score tuples, with `best` starting at
`(-inf, 0)` (`⊥` in the first component). -/
def lexLtWB (x y : WithBot ℝ × ℝ) : Prop := x.1 < y.1 ∨ (x.1 = y.1 ∧ x.2 < y.2)

open Classical in
/-- One corner test of the seed scan: a score beating `best` makes face `i`
the candidate, and additionally flips it in place (relative to the scan's
snapshot `f` of the face) when the orientation sign is negative. -/
noncomputable def scanCorner (metric : ℕ → ℕ → ℝ × ℝ) (osign : ℕ → ℕ → ℝ) (i : ℕ)
    (f : Face) (st2 : (WithBot ℝ × ℝ) × Option ℕ × List Face) (p : ℕ) :
    (WithBot ℝ × ℝ) × Option ℕ × List Face :=
  if lexLtWB st2.1 (((metric i p).1 : WithBot ℝ), (metric i p).2) then
    ((((metric i p).1 : WithBot ℝ), (metric i p).2), some i,
     if osign i p < 0 then st2.2.2.set i (revFace f) else st2.2.2)
  else st2

/-- Seed-scan treatment of face `i`: skip reached faces, else test its three
corners. -/
noncomputable def scanFace (metric : ℕ → ℕ → ℝ × ℝ) (osign : ℕ → ℕ → ℝ)
    (reached : List Bool) (st : (WithBot ℝ × ℝ) × Option ℕ × List Face) (i : ℕ) :
    (WithBot ℝ × ℝ) × Option ℕ × List Face :=
  if reached.getD i true then st
  else
    let f := st.2.2.getD i (0, 0, 0)
    [f.1, f.2.1, f.2.2].foldl (scanCorner metric osign i f) st

/-- The seed scan of `Mesh.orient`: walk every unreached face and its three
corners; a corner beating the best score so far makes the face the
candidate, and additionally flips it in place when the orientation sign is
negative.  Scores (`metric`) and signs (`osign`) are the source's `metric` /
`orient` closures, abstracted over face and point index. -/
noncomputable def scanAll (metric : ℕ → ℕ → ℝ × ℝ) (osign : ℕ → ℕ → ℝ)
    (reached : List Bool) (faces : List Face) :
    (WithBot ℝ × ℝ) × Option ℕ × List Face :=
  (List.range faces.length).foldl (scanFace metric osign reached)
    ((⊥, 0), none, faces)

theorem foldl_preserve {β γ : Type} (P : β → Prop) (f : β → γ → β) :
    ∀ (l : List γ) (init : β), P init → (∀ st x, x ∈ l → P st → P (f st x)) →
      P (l.foldl f init) := by
  intro l
  induction l with
  | nil => intro init h _; simpa using h
  | cons a rest ih =>
    intro init h hstep
    rw [List.foldl_cons]
    exact ih _ (hstep init a (List.mem_cons_self a rest) h)
      (fun st x hx => hstep st x (List.mem_cons_of_mem _ hx))

theorem scanAll_candidate (metric : ℕ → ℕ → ℝ × ℝ) (osign : ℕ → ℕ → ℝ)
    (reached : List Bool) (faces : List Face) :
    ∀ c, (scanAll metric osign reached faces).2.1 = some c →
      reached.getD c true = false := by
  rw [scanAll]
  refine foldl_preserve
    (fun st : (WithBot ℝ × ℝ) × Option ℕ × List Face =>
      ∀ c, st.2.1 = some c → reached.getD c true = false)
    _ _ _ (by simp) ?_
  intro st i _ hP
  rw [scanFace]
  by_cases hr : reached.getD i true
  · rw [if_pos hr]
    exact hP
  · rw [if_neg hr]
    refine foldl_preserve
      (fun st2 : (WithBot ℝ × ℝ) × Option ℕ × List Face =>
        ∀ c, st2.2.1 = some c → reached.getD c true = false) _ _ _ hP ?_
    intro st2 p _ hP2
    rw [scanCorner]
    split
    · intro c hc
      simp only [Option.some.injEq] at hc
      subst hc
      simpa using hr
    · exact hP2

/-- The outer `while True` of `Mesh.orient`: scan for a candidate, stop when
everything is reached, otherwise drain its island and repeat. -/
noncomputable def orientLoop (metric : ℕ → ℕ → ℝ × ℝ) (osign : ℕ → ℕ → ℝ)
    (origFaces : List Face) : List Face → List Bool → List Face
  | faces, reached =>
    let sc := scanAll metric osign reached faces
    match hc : sc.2.1 with
    | none => sc.2.2
    | some c =>
      let dr := orientDrain origFaces sc.2.2 reached [c]
      orientLoop metric osign origFaces dr.1 dr.2
  termination_by _ reached => countFalse reached
  decreasing_by
    exact orientDrain_count_lt origFaces (scanAll_candidate metric osign reached faces c hc) _

/-- `Mesh.orient` with the score pair abstracted. -/
noncomputable def Mesh.orientM {α : Type} (metric : ℕ → ℕ → ℝ × ℝ) (osign : ℕ → ℕ → ℝ)
    (m : Mesh α) : Mesh α :=
  { m with faces :=
      orientLoop metric osign m.faces m.faces (List.replicate m.faces.length false) }

/-- A face with pairwise distinct corners. -/
def faceDistinct (f : Face) : Prop := f.1 ≠ f.2.1 ∧ f.2.1 ≠ f.2.2 ∧ f.2.2 ≠ f.1

theorem revFace_revFace (f : Face) : revFace (revFace f) = f := rfl

theorem faceDistinct_rev {f : Face} (h : faceDistinct f) : faceDistinct (revFace f) :=
  ⟨fun e => h.2.1 e.symm, fun e => h.1 e.symm, fun e => h.2.2 e.symm⟩

theorem mem_fedges_rev {f : Face} {d : ℕ × ℕ} :
    d ∈ fedges (revFace f) ↔ erev d ∈ fedges f := by
  obtain ⟨x, y⟩ := d
  obtain ⟨f1, f2, f3⟩ := f
  simp only [fedges, revFace, erev, List.mem_cons, List.not_mem_nil, or_false,
    Prod.mk.injEq]
  tauto

theorem fedges_ne {f : Face} (hf : faceDistinct f) : ∀ d ∈ fedges f, d.1 ≠ d.2 := by
  obtain ⟨f1, f2, f3⟩ := f
  obtain ⟨h1, h2, h3⟩ := hf
  intro d hd
  simp only [fedges, List.mem_cons, List.not_mem_nil, or_false] at hd
  rcases hd with rfl | rfl | rfl
  · exact h1
  · exact h2
  · exact h3

theorem not_both_directions {f : Face} (hf : faceDistinct f) {a b : ℕ} :
    ¬((a, b) ∈ fedges f ∧ (b, a) ∈ fedges f) := by
  obtain ⟨f1, f2, f3⟩ := f
  obtain ⟨h1, h2, h3⟩ := hf
  simp only [fedges, List.mem_cons, List.not_mem_nil, or_false, Prod.mk.injEq, ne_eq] at *
  omega

theorem ekey_mem_iff {f : Face} (hf : faceDistinct f) {a b : ℕ} (hab : a ≠ b) :
    ekey (a, b) ∈ (fedges f).map ekey ↔ (a, b) ∈ fedges f ∨ (b, a) ∈ fedges f := by
  constructor
  · intro h
    rw [List.mem_map] at h
    obtain ⟨d, hd, hkey⟩ := h
    have hne : d.1 ≠ d.2 := fedges_ne hf d hd
    rcases (ekey_eq_iff hne (show (a, b).1 ≠ (a, b).2 from hab)).mp hkey with rfl | he
    · exact Or.inl hd
    · rw [show d = (b, a) from by
        obtain ⟨x, y⟩ := d
        simpa [erev, Prod.ext_iff, and_comm] using he] at hd
      exact Or.inr hd
  · intro h
    rcases h with h | h
    · exact List.mem_map.mpr ⟨(a, b), h, rfl⟩
    · exact List.mem_map.mpr ⟨(b, a), h, ekey_comm b a⟩

theorem arrange_succ_iff {f : Face} (hf : faceDistinct f) {a b : ℕ}
    (hmem : (a, b) ∈ fedges f ∨ (b, a) ∈ fedges f) :
    ((arrangeface f a).2.1 = b ↔ (a, b) ∈ fedges f) := by
  obtain ⟨f1, f2, f3⟩ := f
  obtain ⟨h1, h2, h3⟩ := hf
  simp only [fedges, List.mem_cons, List.not_mem_nil, or_false, Prod.mk.injEq] at hmem ⊢
  rw [arrangeface]
  split_ifs with hc1 hc2
  · simp only [ne_eq] at *
    constructor
    · intro hb; subst hc1; omega
    · intro hd; subst hc1; omega
  · simp only [ne_eq] at *
    constructor
    · intro hb; subst hc2; omega
    · intro hd; subst hc2; omega
  · simp only [ne_eq] at *
    constructor
    · intro hb; omega
    · intro hd; omega

theorem dir_mem_of_valid {g h : Face} (hm : h = g ∨ h = revFace g) {a b : ℕ}
    (hmem : (a, b) ∈ fedges g ∨ (b, a) ∈ fedges g) :
    (a, b) ∈ fedges h ∨ (b, a) ∈ fedges h := by
  rcases hm with rfl | rfl
  · exact hmem
  · rcases hmem with h | h
    · exact Or.inr (mem_fedges_rev.mpr h)
    · exact Or.inl (mem_fedges_rev.mpr h)

theorem uniq_orientation {g h1 h2 : Face} (hg : faceDistinct g)
    (h1m : h1 = g ∨ h1 = revFace g) (h2m : h2 = g ∨ h2 = revFace g)
    {a b : ℕ} (hmem : (a, b) ∈ fedges g ∨ (b, a) ∈ fedges g)
    (hn1 : (a, b) ∉ fedges h1) (hn2 : (a, b) ∉ fedges h2) : h1 = h2 := by
  have hkey : ∀ h : Face, h = g ∨ h = revFace g → (a, b) ∉ fedges h →
      (b, a) ∈ fedges h := by
    intro h hm hn
    rcases dir_mem_of_valid hm hmem with hx | hx
    · exact absurd hx hn
    · exact hx
  rcases h1m with rfl | rfl <;> rcases h2m with rfl | rfl
  · rfl
  · exfalso
    have hba : (b, a) ∈ fedges h1 := hkey _ (Or.inl rfl) hn1
    have hab : (a, b) ∈ fedges h1 := by
      have := hkey _ (Or.inr rfl) hn2
      exact mem_fedges_rev.mp this
    exact not_both_directions hg ⟨hab, hba⟩
  · exfalso
    have hba : (b, a) ∈ fedges h2 := hkey _ (Or.inl rfl) hn2
    have hab : (a, b) ∈ fedges h2 := by
      have := hkey _ (Or.inr rfl) hn1
      exact mem_fedges_rev.mp this
    exact not_both_directions hg ⟨hab, hba⟩
  · rfl

theorem step_output {nf : Face} (hnf : faceDistinct nf) {a b : ℕ}
    (hmem : (a, b) ∈ fedges nf ∨ (b, a) ∈ fedges nf) :
    (a, b) ∉ fedges (if (arrangeface nf a).2.1 = b then revFace nf else nf) := by
  split
  · next h =>
    have hin : (a, b) ∈ fedges nf := (arrange_succ_iff hnf hmem).mp h
    intro hrev
    exact not_both_directions hnf ⟨hin, mem_fedges_rev.mp hrev⟩
  · next h =>
    exact fun hin => h ((arrange_succ_iff hnf hmem).mpr hin)

theorem orientEdges_mem {f : Face} {d : ℕ × ℕ} : d ∈ orientEdges f ↔ d ∈ fedges f := by
  obtain ⟨f1, f2, f3⟩ := f
  simp only [orientEdges, fedges, List.mem_cons, List.not_mem_nil, or_false]
  tauto

theorem mem_connO {faces : List Face} {e : ℕ × ℕ} {n : ℕ} :
    n ∈ connO faces e ↔ n < faces.length ∧ e ∈ (fedges (faces.getD n (0, 0, 0))).map ekey := by
  rw [connO, List.mem_filter]
  simp [List.mem_range]

theorem getD_set_self' {γ : Type} (l : List γ) (n : ℕ) (x d : γ) (h : n < l.length) :
    (l.set n x).getD n d = x := by
  rw [List.getD_eq_getElem?_getD, List.getElem?_set_self]
  · simp
  · simpa using h

theorem getD_set_ne' {γ : Type} (l : List γ) (m n : ℕ) (x d : γ) (h : m ≠ n) :
    (l.set m x).getD n d = l.getD n d := by
  rw [List.getD_eq_getElem?_getD, List.getElem?_set_ne h, ← List.getD_eq_getElem?_getD]

theorem lt_length_of_getD_ne {γ : Type} {l : List γ} {n : ℕ} {d : γ} (h : l.getD n d ≠ d) :
    n < l.length := by
  by_contra hc
  exact h (List.getD_eq_default _ _ (le_of_not_lt hc))

theorem getD_replicate_lt {n L : ℕ} (h : n < L) :
    (List.replicate L false).getD n true = false := by
  rw [List.getD_eq_getElem?_getD, List.getElem?_replicate]
  simp [h]

/-- `faces` holds at index `n` either the original face or its reversal. -/
def validAt (O faces : List Face) (n : ℕ) : Prop :=
  faces.getD n (0, 0, 0) = O.getD n (0, 0, 0) ∨
  faces.getD n (0, 0, 0) = revFace (O.getD n (0, 0, 0))

/-- Apply a flip sign to the reference orientation `tau`. -/
def tauap (tau : List Face) (s : Bool) (n : ℕ) : Face :=
  if s then revFace (tau.getD n (0, 0, 0)) else tau.getD n (0, 0, 0)

/-- Faces `i` and `n` of the original list share an unoriented edge key. -/
def keyAdj (O : List Face) (i n : ℕ) : Prop :=
  ∃ k ∈ (fedges (O.getD i (0, 0, 0))).map ekey, n ∈ connO O k

/-- A consistent orientation `tau` of the face list `O`: same length, every
face kept or reversed, no directed edge shared by two distinct faces. -/
def goodTau (O tau : List Face) : Prop :=
  tau.length = O.length ∧
  (∀ n < O.length, validAt O tau n) ∧
  (∀ i j, i < O.length → j < O.length → i ≠ j →
    ∀ d, d ∈ fedges (tau.getD i (0, 0, 0)) → d ∉ fedges (tau.getD j (0, 0, 0)))

theorem tauap_false (tau : List Face) (n : ℕ) :
    tauap tau false n = tau.getD n (0, 0, 0) := rfl

theorem tauap_true (tau : List Face) (n : ℕ) :
    tauap tau true n = revFace (tau.getD n (0, 0, 0)) := rfl

theorem tauap_valid {O tau : List Face} (h : goodTau O tau) {n : ℕ}
    (hn : n < O.length) (s : Bool) :
    tauap tau s n = O.getD n (0, 0, 0) ∨
      tauap tau s n = revFace (O.getD n (0, 0, 0)) := by
  cases s with
  | false =>
    rw [tauap_false]
    exact h.2.1 n hn
  | true =>
    rw [tauap_true]
    rcases h.2.1 n hn with he | he
    · exact Or.inr (by rw [he])
    · exact Or.inl (by rw [he, revFace_revFace])

theorem tauap_distinct {O tau : List Face} (h : goodTau O tau)
    (hdist : ∀ n < O.length, faceDistinct (O.getD n (0, 0, 0))) {n : ℕ}
    (hn : n < O.length) (s : Bool) : faceDistinct (tauap tau s n) := by
  rcases tauap_valid h hn s with he | he <;> rw [he]
  · exact hdist n hn
  · exact faceDistinct_rev (hdist n hn)

theorem tau_cross {O tau : List Face} (h : goodTau O tau) {i j : ℕ}
    (hi : i < O.length) (hj : j < O.length) (hij : i ≠ j) (s : Bool) {d : ℕ × ℕ}
    (hd : d ∈ fedges (tauap tau s i)) : d ∉ fedges (tauap tau s j) := by
  cases s with
  | false =>
    rw [tauap_false] at hd ⊢
    exact h.2.2 i j hi hj hij d hd
  | true =>
    rw [tauap_true] at hd ⊢
    intro hdj
    exact h.2.2 i j hi hj hij (erev d) (mem_fedges_rev.mp hd) (mem_fedges_rev.mp hdj)

theorem ekey_mem_of_validAt {O faces : List Face} {n : ℕ} (hv : validAt O faces n)
    {d : ℕ × ℕ} (hd : d ∈ fedges (faces.getD n (0, 0, 0))) :
    ekey d ∈ (fedges (O.getD n (0, 0, 0))).map ekey := by
  rcases hv with he | he
  · exact List.mem_map.mpr ⟨d, he ▸ hd, rfl⟩
  · rw [he] at hd
    refine List.mem_map.mpr ⟨erev d, mem_fedges_rev.mp hd, ?_⟩
    obtain ⟨x, y⟩ := d
    exact (ekey_comm x y).symm

theorem key_surj_of_validAt {O faces : List Face} {n : ℕ} (hv : validAt O faces n)
    {k : ℕ × ℕ} (hk : k ∈ (fedges (O.getD n (0, 0, 0))).map ekey) :
    ∃ d ∈ fedges (faces.getD n (0, 0, 0)), ekey d = k := by
  obtain ⟨d0, hd0, hkey⟩ := List.mem_map.mp hk
  rcases hv with he | he
  · exact ⟨d0, he ▸ hd0, hkey⟩
  · refine ⟨erev d0, ?_, ?_⟩
    · rw [he]
      exact mem_fedges_rev.mpr (by rw [erev_erev]; exact hd0)
    · obtain ⟨x, y⟩ := d0
      rw [← hkey]
      exact (ekey_comm x y).symm

/-- For a consistent `tau` and a sign `s`, there is a sign matching any valid
current value of face `c`. -/
theorem sign_exists {O tau faces : List Face} (h : goodTau O tau) {c : ℕ}
    (hc : c < O.length) (hv : validAt O faces c) :
    ∃ s : Bool, faces.getD c (0, 0, 0) = tauap tau s c := by
  rcases hv with he | he <;> rcases h.2.1 c hc with ht | ht
  · exact ⟨false, by rw [tauap_false, he, ht]⟩
  · exact ⟨true, by rw [tauap_true, he, ht, revFace_revFace]⟩
  · exact ⟨true, by rw [tauap_true, he, ht]⟩
  · exact ⟨false, by rw [tauap_false, he, ht]⟩

/-- The flip rule applied from a parent carrying `tauap tau s i` across the
directed edge `(a, b)` turns any valid neighbor value into `tauap tau s n`:
the rule output is the unique valid orientation of face `n` not containing
`(a, b)`, which consistency identifies as `tauap tau s n`. -/
theorem flip_result {O tau : List Face} (htau : goodTau O tau)
    (hdist : ∀ m < O.length, faceDistinct (O.getD m (0, 0, 0)))
    {s : Bool} {i n a b : ℕ} (hi : i < O.length) (hn : n < O.length) (hin : i ≠ n)
    (hab : (a, b) ∈ fedges (tauap tau s i))
    (hkey : ekey (a, b) ∈ (fedges (O.getD n (0, 0, 0))).map ekey)
    {nf : Face} (hnf : nf = O.getD n (0, 0, 0) ∨ nf = revFace (O.getD n (0, 0, 0))) :
    (if (arrangeface nf a).2.1 = b then revFace nf else nf) = tauap tau s n := by
  have hdp : faceDistinct (tauap tau s i) := tauap_distinct htau hdist hi s
  have habne : a ≠ b := fedges_ne hdp _ hab
  have hdn : faceDistinct (O.getD n (0, 0, 0)) := hdist n hn
  have hmemn : (a, b) ∈ fedges (O.getD n (0, 0, 0)) ∨
      (b, a) ∈ fedges (O.getD n (0, 0, 0)) := (ekey_mem_iff hdn habne).mp hkey
  have hnfd : faceDistinct nf := by
    rcases hnf with rfl | rfl
    · exact hdn
    · exact faceDistinct_rev hdn
  have hout : (a, b) ∉ fedges (if (arrangeface nf a).2.1 = b then revFace nf else nf) :=
    step_output hnfd (dir_mem_of_valid hnf hmemn)
  have houtv : (if (arrangeface nf a).2.1 = b then revFace nf else nf) =
      O.getD n (0, 0, 0) ∨
      (if (arrangeface nf a).2.1 = b then revFace nf else nf) =
        revFace (O.getD n (0, 0, 0)) := by
    split
    · rcases hnf with rfl | rfl
      · exact Or.inr rfl
      · exact Or.inl (revFace_revFace _)
    · exact hnf
  have htaun : tauap tau s n = O.getD n (0, 0, 0) ∨
      tauap tau s n = revFace (O.getD n (0, 0, 0)) := tauap_valid htau hn s
  have htauout : (a, b) ∉ fedges (tauap tau s n) := tau_cross htau hi hn hin s hab
  exact uniq_orientation hdn houtv htaun hmemn hout htauout

theorem orientStepN_reached {a b n : ℕ} {reached : List Bool} {st : List Face × List ℕ}
    (h : reached.getD n true = true) : orientStepN a b reached st n = st := by
  rw [orientStepN, if_pos h]

theorem orientStepN_unreached {a b n : ℕ} {reached : List Bool} {st : List Face × List ℕ}
    (h : reached.getD n true = false) :
    orientStepN a b reached st n =
      (if (arrangeface (st.1.getD n (0, 0, 0)) a).2.1 = b
        then st.1.set n (revFace (st.1.getD n (0, 0, 0))) else st.1, n :: st.2) := by
  rw [orientStepN, if_neg (by rw [h]; exact Bool.false_ne_true)]

theorem orientStepN_stack_mono {a b n : ℕ} {reached : List Bool}
    {st : List Face × List ℕ} {x : ℕ} (hx : x ∈ st.2) :
    x ∈ (orientStepN a b reached st n).2 := by
  rw [orientStepN]
  split
  · exact hx
  · dsimp only
    exact List.mem_cons_of_mem _ hx

/-- Slim state invariant: face-list length and per-face validity. -/
def SInv (O faces : List Face) : Prop :=
  faces.length = O.length ∧ ∀ n < O.length, validAt O faces n

theorem validAt_flip {O faces : List Face} {n : ℕ} (h : validAt O faces n) :
    revFace (faces.getD n (0, 0, 0)) = O.getD n (0, 0, 0) ∨
      revFace (faces.getD n (0, 0, 0)) = revFace (O.getD n (0, 0, 0)) := by
  rcases h with he | he
  · exact Or.inr (by rw [he])
  · exact Or.inl (by rw [he, revFace_revFace])

theorem orientStepN_SInv {O : List Face} {a b n : ℕ} {reached : List Bool}
    {st : List Face × List ℕ} (hn : n < O.length) (hP : SInv O st.1) :
    SInv O (orientStepN a b reached st n).1 := by
  rw [orientStepN]
  split
  · exact hP
  · dsimp only
    obtain ⟨hlen, hval⟩ := hP
    split
    · refine ⟨by rw [List.length_set]; exact hlen, ?_⟩
      intro m hm
      by_cases hmn : n = m
      · subst hmn
        have hget : (st.1.set n (revFace (st.1.getD n (0, 0, 0)))).getD n (0, 0, 0) =
            revFace (st.1.getD n (0, 0, 0)) :=
          getD_set_self' _ _ _ _ (by rw [hlen]; exact hn)
        rcases validAt_flip (hval n hn) with h | h
        · exact Or.inl (hget.trans h)
        · exact Or.inr (hget.trans h)
      · have hget := getD_set_ne' st.1 n m (revFace (st.1.getD n (0, 0, 0))) (0, 0, 0) hmn
        rcases hval m hm with h | h
        · exact Or.inl (hget.trans h)
        · exact Or.inr (hget.trans h)
    · exact ⟨hlen, hval⟩

theorem orientVisit_SInv {O : List Face} {reached : List Bool} {i : ℕ}
    {faces : List Face} {stack : List ℕ} (hP : SInv O faces) :
    SInv O (orientVisit O reached i faces stack).1 := by
  rw [orientVisit]
  refine foldl_preserve (fun st : List Face × List ℕ => SInv O st.1) _ _ _ hP ?_
  intro st ab _ hPst
  refine foldl_preserve (fun st2 : List Face × List ℕ => SInv O st2.1) _ _ _ hPst ?_
  intro st2 n hn hPst2
  exact orientStepN_SInv (mem_connO.mp hn).1 hPst2

theorem orientVisit_stack_mono {O : List Face} {reached : List Bool} {i : ℕ}
    {faces : List Face} {stack : List ℕ} {x : ℕ} (hx : x ∈ stack) :
    x ∈ (orientVisit O reached i faces stack).2 := by
  rw [orientVisit]
  refine foldl_preserve (fun st : List Face × List ℕ => x ∈ st.2) _ _ _ hx ?_
  intro st ab _ hPst
  refine foldl_preserve (fun st2 : List Face × List ℕ => x ∈ st2.2) _ _ _ hPst ?_
  intro st2 n _ hPst2
  exact orientStepN_stack_mono hPst2

theorem orientDrain_S (O : List Face) :
    ∀ faces reached stack, SInv O faces →
      SInv O (orientDrain O faces reached stack).1 ∧
      (orientDrain O faces reached stack).2.length = reached.length
  | faces, reached, [] => by
    intro h
    rw [orientDrain]
    exact ⟨h, rfl⟩
  | faces, reached, i :: rest => by
    intro h
    rw [orientDrain]
    split
    next hreach => exact orientDrain_S O faces reached rest h
    next hreach =>
      have hrec := orientDrain_S O (orientVisit O (reached.set i true) i faces rest).1
        (reached.set i true) (orientVisit O (reached.set i true) i faces rest).2
        (orientVisit_SInv h)
      exact ⟨hrec.1, by rw [hrec.2, List.length_set]⟩
  termination_by faces reached stack => (countFalse reached, stack.length)
  decreasing_by
  all_goals simp_wf
  all_goals rename_i hA hB hC
  all_goals first
    | exact Prod.Lex.right _ (Nat.lt_succ_self _)
    | exact Prod.Lex.left _ _ (count_false_set_true hC)

/-- Mid-visit state invariant relative to a sign `s`, the post-marking
`reached` array, and the faces `faces0` at visit entry: lengths, validity,
stack bounds, the stacked-unreached faces carry `tauap tau s`, and faces at
reached indices are untouched. -/
def VInv (O tau : List Face) (s : Bool) (reached : List Bool) (faces0 : List Face)
    (st : List Face × List ℕ) : Prop :=
  st.1.length = O.length ∧
  (∀ n < O.length, validAt O st.1 n) ∧
  (∀ n ∈ st.2, n < O.length) ∧
  (∀ n ∈ st.2, reached.getD n true = false → st.1.getD n (0, 0, 0) = tauap tau s n) ∧
  (∀ m, reached.getD m true = true → st.1.getD m (0, 0, 0) = faces0.getD m (0, 0, 0))

theorem orientStepN_VInv {O tau : List Face} (htau : goodTau O tau)
    (hdist : ∀ m < O.length, faceDistinct (O.getD m (0, 0, 0)))
    {s : Bool} {reached : List Bool} {faces0 : List Face} {i a b : ℕ}
    (hi : i < O.length) (hri : reached.getD i true = true)
    (hab : (a, b) ∈ fedges (tauap tau s i))
    {st : List Face × List ℕ} {n : ℕ} (hn : n ∈ connO O (ekey (a, b)))
    (hP : VInv O tau s reached faces0 st) :
    VInv O tau s reached faces0 (orientStepN a b reached st n) := by
  obtain ⟨hnL, hnkey⟩ := mem_connO.mp hn
  by_cases hrn : reached.getD n true = true
  · rw [orientStepN_reached hrn]
    exact hP
  · have hrn' : reached.getD n true = false := by
      cases hx : reached.getD n true
      · rfl
      · exact absurd hx hrn
    have hin : i ≠ n := by
      intro he
      rw [he, hrn'] at hri
      cases hri
    obtain ⟨hlen, hval, hsb, hst, hfr⟩ := hP
    rw [orientStepN_unreached hrn']
    have hgetn : ((if (arrangeface (st.1.getD n (0, 0, 0)) a).2.1 = b
          then st.1.set n (revFace (st.1.getD n (0, 0, 0))) else st.1)).getD n (0, 0, 0)
        = tauap tau s n := by
      rw [← flip_result htau hdist hi hnL hin hab hnkey (hval n hnL)]
      split
      · exact getD_set_self' _ _ _ _ (by rw [hlen]; exact hnL)
      · rfl
    have hother : ∀ m, n ≠ m →
        ((if (arrangeface (st.1.getD n (0, 0, 0)) a).2.1 = b
          then st.1.set n (revFace (st.1.getD n (0, 0, 0))) else st.1)).getD m (0, 0, 0)
        = st.1.getD m (0, 0, 0) := by
      intro m hm
      split
      · exact getD_set_ne' _ _ _ _ _ hm
      · rfl
    have hlen' : ((if (arrangeface (st.1.getD n (0, 0, 0)) a).2.1 = b
          then st.1.set n (revFace (st.1.getD n (0, 0, 0))) else st.1)).length
        = O.length := by
      split
      · rw [List.length_set]; exact hlen
      · exact hlen
    refine ⟨hlen', ?_, ?_, ?_, ?_⟩
    · intro m hm
      by_cases hmn : m = n
      · subst hmn
        rcases tauap_valid htau hnL s with h | h
        · exact Or.inl (hgetn.trans h)
        · exact Or.inr (hgetn.trans h)
      · have hg := hother m (fun he => hmn he.symm)
        rcases hval m hm with h | h
        · exact Or.inl (hg.trans h)
        · exact Or.inr (hg.trans h)
    · intro m hm
      rcases List.mem_cons.mp hm with rfl | hm'
      · exact hnL
      · exact hsb m hm'
    · intro m hm hrm
      by_cases hmn : m = n
      · subst hmn
        exact hgetn
      · rcases List.mem_cons.mp hm with he | hm'
        · exact absurd he hmn
        · exact (hother m (fun he => hmn he.symm)).trans (hst m hm' hrm)
    · intro m hrm
      have hmn : n ≠ m := by
        intro he
        rw [← he, hrn'] at hrm
        cases hrm
      exact (hother m hmn).trans (hfr m hrm)

theorem orientVisit_VInv {O tau : List Face} (htau : goodTau O tau)
    (hdist : ∀ m < O.length, faceDistinct (O.getD m (0, 0, 0)))
    {s : Bool} {reached : List Bool} {i : ℕ} {faces : List Face} {stack : List ℕ}
    (hi : i < O.length) (hri : reached.getD i true = true)
    (hfi : faces.getD i (0, 0, 0) = tauap tau s i)
    (hP : VInv O tau s reached faces (faces, stack)) :
    VInv O tau s reached faces (orientVisit O reached i faces stack) := by
  rw [orientVisit]
  refine foldl_preserve (VInv O tau s reached faces) _ _ _ hP ?_
  intro st ab hab hPst
  refine foldl_preserve (VInv O tau s reached faces) _ _ _ hPst ?_
  intro st2 n hn hPst2
  have hab' : (ab.1, ab.2) ∈ fedges (tauap tau s i) := by
    rw [← hfi]
    exact orientEdges_mem.mp hab
  exact orientStepN_VInv htau hdist hi hri hab' hn hPst2

theorem connO_foldl_cover {a b : ℕ} {reached : List Bool} :
    ∀ (l : List ℕ) (st : List Face × List ℕ) (n : ℕ), n ∈ l →
      reached.getD n true = true ∨ n ∈ (l.foldl (orientStepN a b reached) st).2 := by
  intro l
  induction l with
  | nil => intro st n hn; cases hn
  | cons m rest ih =>
    intro st n hn
    rw [List.foldl_cons]
    rcases List.mem_cons.mp hn with rfl | hn'
    · by_cases hr : reached.getD n true = true
      · exact Or.inl hr
      · right
        have hrn : reached.getD n true = false := by
          cases hx : reached.getD n true
          · rfl
          · exact absurd hx hr
        have hmem : n ∈ (orientStepN a b reached st n).2 := by
          rw [orientStepN_unreached hrn]
          exact List.mem_cons_self _ _
        refine foldl_preserve (fun st2 : List Face × List ℕ => n ∈ st2.2) _ _ _ hmem ?_
        intro st2 x _ hPx
        exact orientStepN_stack_mono hPx
    · exact ih _ n hn'

theorem orientVisit_cover {O : List Face} {reached : List Bool} {i : ℕ}
    {faces : List Face} {stack : List ℕ} (hval : validAt O faces i) :
    ∀ n, keyAdj O i n →
      reached.getD n true = true ∨ n ∈ (orientVisit O reached i faces stack).2 := by
  intro n hadj
  obtain ⟨k, hk, hnk⟩ := hadj
  obtain ⟨d, hd, hdk⟩ := key_surj_of_validAt hval hk
  have hd' : d ∈ orientEdges (faces.getD i (0, 0, 0)) := orientEdges_mem.mpr hd
  obtain ⟨l1, l2, hl⟩ := List.append_of_mem hd'
  by_cases hr : reached.getD n true = true
  · exact Or.inl hr
  · right
    rw [orientVisit]
    rw [hl, List.foldl_append, List.foldl_cons]
    have hnk' : n ∈ connO O (ekey d) := by rw [hdk]; exact hnk
    have hcov := @connO_foldl_cover d.1 d.2 reached
      (connO O (ekey d)) (l1.foldl
        (fun st ab => (connO O (ekey ab)).foldl (orientStepN ab.1 ab.2 reached) st)
        (faces, stack)) n hnk'
    rcases hcov with h | h
    · exact absurd h hr
    · refine foldl_preserve (fun st2 : List Face × List ℕ => n ∈ st2.2) _ _ _ h ?_
      intro st2 ab _ hP
      refine foldl_preserve (fun st3 : List Face × List ℕ => n ∈ st3.2) _ _ _ hP ?_
      intro st3 m _ hP3
      exact orientStepN_stack_mono hP3

/-- Drain invariant relative to the consistent orientation `tau`, the round
sign `s`, the round-entry reached array `R0` and the round-entry faces `F0`:
lengths, monotonicity over `R0`, validity, stack bounds, stacked-unreached
and newly-reached faces carry `tauap tau s`, faces reached at round entry are
untouched, and all key-neighbors of reached faces are reached or stacked. -/
def DInv (O tau : List Face) (s : Bool) (R0 : List Bool) (F0 : List Face)
    (faces : List Face) (reached : List Bool) (stack : List ℕ) : Prop :=
  faces.length = O.length ∧
  reached.length = O.length ∧
  (∀ n, R0.getD n true = true → reached.getD n true = true) ∧
  (∀ n < O.length, validAt O faces n) ∧
  (∀ n ∈ stack, n < O.length) ∧
  (∀ n ∈ stack, reached.getD n true = false → faces.getD n (0, 0, 0) = tauap tau s n) ∧
  (∀ n < O.length, reached.getD n true = true → R0.getD n true = true ∨
      faces.getD n (0, 0, 0) = tauap tau s n) ∧
  (∀ n, R0.getD n true = true → faces.getD n (0, 0, 0) = F0.getD n (0, 0, 0)) ∧
  (∀ r < O.length, reached.getD r true = true →
      ∀ n, keyAdj O r n → reached.getD n true = true ∨ n ∈ stack)

theorem orientDrain_DInv (O tau F0 : List Face) (R0 : List Bool) (s : Bool)
    (htau : goodTau O tau)
    (hdist : ∀ m < O.length, faceDistinct (O.getD m (0, 0, 0))) :
    ∀ faces reached stack, DInv O tau s R0 F0 faces reached stack →
      DInv O tau s R0 F0 (orientDrain O faces reached stack).1
        (orientDrain O faces reached stack).2 []
  | faces, reached, [] => by
    intro h
    rw [orientDrain]
    exact h
  | faces, reached, i :: rest => by
    intro h
    rw [orientDrain]
    split
    next hreach =>
      refine orientDrain_DInv O tau F0 R0 s htau hdist faces reached rest ?_
      obtain ⟨h1, h2, h3, h4, h5, h6, h7, h8, h9⟩ := h
      refine ⟨h1, h2, h3, h4, fun n hn => h5 n (List.mem_cons_of_mem _ hn),
        fun n hn => h6 n (List.mem_cons_of_mem _ hn), h7, h8, ?_⟩
      intro r hr hrr n hadj
      rcases h9 r hr hrr n hadj with hx | hx
      · exact Or.inl hx
      · rcases List.mem_cons.mp hx with rfl | hx'
        · exact Or.inl hreach
        · exact Or.inr hx'
    next hreach =>
      obtain ⟨h1, h2, h3, h4, h5, h6, h7, h8, h9⟩ := h
      have hiL : i < O.length := h5 i (List.mem_cons_self _ _)
      have hiR : i < reached.length :=
        lt_length_of_getD_ne (by rw [hreach]; exact Bool.false_ne_true)
      have hri' : (reached.set i true).getD i true = true :=
        getD_set_self' _ _ _ _ hiR
      have hmono : ∀ n, reached.getD n true = true →
          (reached.set i true).getD n true = true := by
        intro n hn
        by_cases hni : i = n
        · subst hni; exact hri'
        · rw [getD_set_ne' _ _ _ _ _ hni]; exact hn
      have hstay : ∀ n, i ≠ n →
          (reached.set i true).getD n true = reached.getD n true := by
        intro n hn
        exact getD_set_ne' _ _ _ _ _ hn
      have hfi : faces.getD i (0, 0, 0) = tauap tau s i :=
        h6 i (List.mem_cons_self _ _) hreach
      have hVin : VInv O tau s (reached.set i true) faces (faces, rest) := by
        refine ⟨h1, h4, fun n hn => h5 n (List.mem_cons_of_mem _ hn), ?_, ?_⟩
        · intro n hn hrn
          have hni : i ≠ n := by
            intro he
            rw [← he, hri'] at hrn
            cases hrn
          rw [hstay n hni] at hrn
          exact h6 n (List.mem_cons_of_mem _ hn) hrn
        · intro m _
          rfl
      have hV := orientVisit_VInv htau hdist hiL hri' hfi hVin
      obtain ⟨hV1, hV2, hV3, hV4, hV5⟩ := hV
      have hcov := @orientVisit_cover O (reached.set i true) i faces rest (h4 i hiL)
      refine orientDrain_DInv O tau F0 R0 s htau hdist _ _ _
        ⟨hV1, by rw [List.length_set]; exact h2, fun n hn => hmono n (h3 n hn),
          hV2, hV3, hV4, ?_, ?_, ?_⟩
      · intro n hnL hrn
        by_cases hni : i = n
        · subst hni
          exact Or.inr ((hV5 i hri').trans hfi)
        · rw [hstay n hni] at hrn
          rcases h7 n hnL hrn with hx | hx
          · exact Or.inl hx
          · exact Or.inr ((hV5 n (hmono n hrn)).trans hx)
      · intro n hn
        exact (hV5 n (hmono n (h3 n hn))).trans (h8 n hn)
      · intro r hr hrr n hadj
        by_cases hri2 : i = r
        · subst hri2
          exact hcov n hadj
        · rw [hstay r hri2] at hrr
          rcases h9 r hr hrr n hadj with hx | hx
          · exact Or.inl (hmono n hx)
          · rcases List.mem_cons.mp hx with rfl | hx'
            · exact Or.inl hri'
            · exact Or.inr (orientVisit_stack_mono hx')
  termination_by faces reached stack => (countFalse reached, stack.length)
  decreasing_by
  all_goals simp_wf
  all_goals first
    | exact Prod.Lex.right _ (Nat.lt_succ_self _)
    | exact Prod.Lex.left _ _ (count_false_set_true (by assumption))

theorem scanAll_length (metric : ℕ → ℕ → ℝ × ℝ) (osign : ℕ → ℕ → ℝ)
    (reached : List Bool) (faces : List Face) :
    (scanAll metric osign reached faces).2.2.length = faces.length := by
  rw [scanAll]
  refine foldl_preserve (fun st : (WithBot ℝ × ℝ) × Option ℕ × List Face =>
    st.2.2.length = faces.length) _ _ _ rfl ?_
  intro st i _ hP
  rw [scanFace]
  split
  · exact hP
  · dsimp only
    refine foldl_preserve (fun st2 : (WithBot ℝ × ℝ) × Option ℕ × List Face =>
      st2.2.2.length = faces.length) _ _ _ hP ?_
    intro st2 p _ hP2
    rw [scanCorner]
    split
    · dsimp only
      split
      · rw [List.length_set]
        exact hP2
      · exact hP2
    · exact hP2

theorem scanAll_frame (metric : ℕ → ℕ → ℝ × ℝ) (osign : ℕ → ℕ → ℝ)
    (reached : List Bool) (faces : List Face) {n : ℕ}
    (hn : reached.getD n true = true) :
    (scanAll metric osign reached faces).2.2.getD n (0, 0, 0) =
      faces.getD n (0, 0, 0) := by
  rw [scanAll]
  refine foldl_preserve (fun st : (WithBot ℝ × ℝ) × Option ℕ × List Face =>
    st.2.2.getD n (0, 0, 0) = faces.getD n (0, 0, 0)) _ _ _ rfl ?_
  intro st i _ hP
  rw [scanFace]
  split
  next => exact hP
  next hr =>
    have hin : i ≠ n := fun he => hr (he ▸ hn)
    dsimp only
    refine foldl_preserve (fun st2 : (WithBot ℝ × ℝ) × Option ℕ × List Face =>
      st2.2.2.getD n (0, 0, 0) = faces.getD n (0, 0, 0)) _ _ _ hP ?_
    intro st2 p _ hP2
    rw [scanCorner]
    split
    · dsimp only
      split
      · rw [getD_set_ne' _ _ _ _ _ hin]
        exact hP2
      · exact hP2
    · exact hP2

theorem scanAll_SInv (metric : ℕ → ℕ → ℝ × ℝ) (osign : ℕ → ℕ → ℝ)
    (reached : List Bool) {O faces : List Face} (hP0 : SInv O faces) :
    SInv O (scanAll metric osign reached faces).2.2 := by
  rw [scanAll]
  refine foldl_preserve (fun st : (WithBot ℝ × ℝ) × Option ℕ × List Face =>
    SInv O st.2.2) _ _ _ hP0 ?_
  intro st i hiR hPst
  rw [scanFace]
  split
  · exact hPst
  · dsimp only
    have hiL : i < O.length := by
      rw [← hP0.1]
      exact List.mem_range.mp hiR
    have hf : validAt O st.2.2 i := hPst.2 i hiL
    refine foldl_preserve (fun st2 : (WithBot ℝ × ℝ) × Option ℕ × List Face =>
      SInv O st2.2.2) _ _ _ hPst ?_
    intro st2 p _ hP2
    rw [scanCorner]
    split
    · dsimp only
      split
      · obtain ⟨hlen2, hval2⟩ := hP2
        refine ⟨by rw [List.length_set]; exact hlen2, ?_⟩
        intro m hm
        by_cases hmi : i = m
        · subst hmi
          have hget : (st2.2.2.set i (revFace (st.2.2.getD i (0, 0, 0)))).getD i
              (0, 0, 0) = revFace (st.2.2.getD i (0, 0, 0)) :=
            getD_set_self' _ _ _ _ (by rw [hlen2]; exact hiL)
          rcases validAt_flip hf with h | h
          · exact Or.inl (hget.trans h)
          · exact Or.inr (hget.trans h)
        · have hget := getD_set_ne' st2.2.2 i m
            (revFace (st.2.2.getD i (0, 0, 0))) (0, 0, 0) hmi
          rcases hval2 m hm with h | h
          · exact Or.inl (hget.trans h)
          · exact Or.inr (hget.trans h)
      · exact hP2
    · exact hP2

theorem scanAll_candidate_lt (metric : ℕ → ℕ → ℝ × ℝ) (osign : ℕ → ℕ → ℝ)
    (reached : List Bool) (faces : List Face) :
    ∀ c, (scanAll metric osign reached faces).2.1 = some c → c < faces.length := by
  rw [scanAll]
  refine foldl_preserve (fun st : (WithBot ℝ × ℝ) × Option ℕ × List Face =>
    ∀ c, st.2.1 = some c → c < faces.length) _ _ _ (by intro c hc; cases hc) ?_
  intro st i hiR hP
  rw [scanFace]
  split
  · exact hP
  · dsimp only
    refine foldl_preserve (fun st2 : (WithBot ℝ × ℝ) × Option ℕ × List Face =>
      ∀ c, st2.2.1 = some c → c < faces.length) _ _ _ hP ?_
    intro st2 p _ hP2
    rw [scanCorner]
    split
    · intro c hc
      simp only [Option.some.injEq] at hc
      subst hc
      exact List.mem_range.mp hiR
    · exact hP2

/-- Generic forcing principle for a fold: if `bad` is absorbing, `R` is
invariant, and a step on an element satisfying `P` forces `bad` from any
non-`bad` `R`-state, then a non-`bad` result means no element satisfied
`P`. -/
theorem foldl_force {β γ : Type} (f : β → γ → β) (bad R : β → Prop) (P : γ → Prop)
    (hbad : ∀ st x, bad st → bad (f st x))
    (hR : ∀ st x, R st → R (f st x))
    (hforce : ∀ st x, R st → ¬ bad st → P x → bad (f st x)) :
    ∀ (l : List γ) (init : β), R init → ¬ bad (l.foldl f init) → ∀ x ∈ l, ¬ P x := by
  intro l
  induction l with
  | nil => intro init _ _ x hx; cases hx
  | cons a rest ih =>
    intro init hRi hnb x hx
    rw [List.foldl_cons] at hnb
    rcases List.mem_cons.mp hx with rfl | hx'
    · intro hPx
      by_cases hb : bad init
      · exact hnb (foldl_preserve bad f rest _ (hbad init x hb)
          (fun st y _ h => hbad st y h))
      · exact hnb (foldl_preserve bad f rest _ (hforce init x hRi hb hPx)
          (fun st y _ h => hbad st y h))
    · exact ih (f init a) (hR init a hRi) hnb x hx'

theorem scanFace_bad (metric : ℕ → ℕ → ℝ × ℝ) (osign : ℕ → ℕ → ℝ)
    (reached : List Bool) (st : (WithBot ℝ × ℝ) × Option ℕ × List Face) (i : ℕ)
    (h : ∃ c, st.2.1 = some c) :
    ∃ c, (scanFace metric osign reached st i).2.1 = some c := by
  rw [scanFace]
  split
  · exact h
  · dsimp only
    refine foldl_preserve (fun st2 : (WithBot ℝ × ℝ) × Option ℕ × List Face =>
      ∃ c, st2.2.1 = some c) _ _ _ h ?_
    intro st2 p _ h2
    rw [scanCorner]
    split
    · exact ⟨i, rfl⟩
    · exact h2

theorem scanFace_R (metric : ℕ → ℕ → ℝ × ℝ) (osign : ℕ → ℕ → ℝ)
    (reached : List Bool) (st : (WithBot ℝ × ℝ) × Option ℕ × List Face) (i : ℕ)
    (h : st.2.1 = none → st.1 = (⊥, 0)) :
    (scanFace metric osign reached st i).2.1 = none →
      (scanFace metric osign reached st i).1 = (⊥, 0) := by
  rw [scanFace]
  split
  · exact h
  · dsimp only
    refine foldl_preserve (fun st2 : (WithBot ℝ × ℝ) × Option ℕ × List Face =>
      st2.2.1 = none → st2.1 = (⊥, 0)) _ _ _ h ?_
    intro st2 p _ h2
    rw [scanCorner]
    split
    · intro hc
      exact absurd hc (by simp)
    · exact h2

theorem scanFace_force (metric : ℕ → ℕ → ℝ × ℝ) (osign : ℕ → ℕ → ℝ)
    (reached : List Bool) (st : (WithBot ℝ × ℝ) × Option ℕ × List Face) (i : ℕ)
    (hR : st.2.1 = none → st.1 = (⊥, 0)) (hb : ¬ ∃ c, st.2.1 = some c)
    (hP : reached.getD i true = false) :
    ∃ c, (scanFace metric osign reached st i).2.1 = some c := by
  have hnone : st.2.1 = none := by
    cases hx : st.2.1
    · rfl
    · exact absurd ⟨_, hx⟩ hb
  have hbest : st.1 = (⊥, 0) := hR hnone
  rw [scanFace, if_neg (by rw [hP]; exact Bool.false_ne_true)]
  dsimp only
  rw [List.foldl_cons]
  have h1 : (scanCorner metric osign i (st.2.2.getD i (0, 0, 0)) st
      (st.2.2.getD i (0, 0, 0)).1).2.1 = some i := by
    rw [scanCorner, if_pos (show lexLtWB st.1 _ by
      rw [hbest]
      exact Or.inl (WithBot.bot_lt_coe _))]
  refine foldl_preserve (fun st2 : (WithBot ℝ × ℝ) × Option ℕ × List Face =>
    ∃ c, st2.2.1 = some c) _ _ _ ⟨i, h1⟩ ?_
  intro st2 p _ h2
  rw [scanCorner]
  split
  · exact ⟨i, rfl⟩
  · exact h2

theorem scanAll_none (metric : ℕ → ℕ → ℝ × ℝ) (osign : ℕ → ℕ → ℝ)
    (reached : List Bool) (faces : List Face)
    (hnone : (scanAll metric osign reached faces).2.1 = none) :
    ∀ i < faces.length, reached.getD i true = true := by
  intro i hi
  by_contra hri
  have hri' : reached.getD i true = false := by
    cases hx : reached.getD i true
    · rfl
    · exact absurd hx hri
  rw [scanAll] at hnone
  exact (foldl_force (scanFace metric osign reached)
      (fun st => ∃ c, st.2.1 = some c)
      (fun st => st.2.1 = none → st.1 = (⊥, 0))
      (fun j => reached.getD j true = false)
      (fun st x h => scanFace_bad metric osign reached st x h)
      (fun st x h => scanFace_R metric osign reached st x h)
      (fun st x hR hb hPx => scanFace_force metric osign reached st x hR hb hPx)
      (List.range faces.length) ((⊥, 0), none, faces)
      (fun _ => rfl)
      (fun hb => by
        rcases hb with ⟨c, hc⟩
        rw [hnone] at hc
        cases hc)
      i (List.mem_range.mpr hi)) hri'

theorem orientLoop_S (metric : ℕ → ℕ → ℝ × ℝ) (osign : ℕ → ℕ → ℝ) (O : List Face) :
    ∀ faces reached, SInv O faces → reached.length = O.length →
      SInv O (orientLoop metric osign O faces reached)
  | faces, reached => by
    intro h hr
    rw [orientLoop]
    dsimp only
    split
    next hc =>
      exact scanAll_SInv metric osign reached h
    next c hc =>
      have hS := scanAll_SInv metric osign reached h
      have hD := orientDrain_S O (scanAll metric osign reached faces).2.2 reached [c] hS
      refine orientLoop_S metric osign O _ _ hD.1 ?_
      rw [hD.2]
      exact hr
  termination_by faces reached => countFalse reached
  decreasing_by
    exact orientDrain_count_lt O (scanAll_candidate metric osign reached faces _ (by assumption)) _

theorem orientLoop_main (metric : ℕ → ℕ → ℝ × ℝ) (osign : ℕ → ℕ → ℝ)
    (O tau : List Face) (htau : goodTau O tau)
    (hdist : ∀ m < O.length, faceDistinct (O.getD m (0, 0, 0))) :
    ∀ faces reached,
      faces.length = O.length →
      reached.length = O.length →
      (∀ n < O.length, validAt O faces n) →
      (∀ i < O.length, reached.getD i true = true →
        ∀ n, keyAdj O i n → reached.getD n true = true) →
      (∀ i j, i < O.length → j < O.length → i ≠ j → reached.getD i true = true →
        reached.getD j true = true →
        ∀ d, d ∈ fedges (faces.getD i (0, 0, 0)) →
          d ∉ fedges (faces.getD j (0, 0, 0))) →
      ∀ i j, i < O.length → j < O.length → i ≠ j →
        ∀ d, d ∈ fedges ((orientLoop metric osign O faces reached).getD i (0, 0, 0)) →
          d ∉ fedges ((orientLoop metric osign O faces reached).getD j (0, 0, 0))
  | faces, reached => by
    intro hlen hrlen hval hA hC
    rw [orientLoop]
    dsimp only
    split
    next hc =>
      intro i j hi hj hij d hdi hdj
      have hallr : ∀ n < faces.length, reached.getD n true = true :=
        scanAll_none metric osign reached faces hc
      have hri : reached.getD i true = true := hallr i (by rw [hlen]; exact hi)
      have hrj : reached.getD j true = true := hallr j (by rw [hlen]; exact hj)
      rw [scanAll_frame metric osign reached faces hri] at hdi
      rw [scanAll_frame metric osign reached faces hrj] at hdj
      exact hC i j hi hj hij hri hrj d hdi hdj
    next c hc =>
      have hSc : SInv O (scanAll metric osign reached faces).2.2 :=
        scanAll_SInv metric osign reached ⟨hlen, hval⟩
      have hcL : c < O.length := by
        rw [← hlen]
        exact scanAll_candidate_lt metric osign reached faces c hc
      obtain ⟨s, hs⟩ := sign_exists htau hcL (hSc.2 c hcL)
      have hD : DInv O tau s reached (scanAll metric osign reached faces).2.2
          (scanAll metric osign reached faces).2.2 reached [c] := by
        refine ⟨hSc.1, hrlen, fun n hn => hn, hSc.2, ?_, ?_, ?_, ?_, ?_⟩
        · intro n hn
          rcases List.mem_cons.mp hn with rfl | hn'
          · exact hcL
          · cases hn'
        · intro n hn _
          rcases List.mem_cons.mp hn with rfl | hn'
          · exact hs
          · cases hn'
        · intro n _ hn
          exact Or.inl hn
        · intro n _
          rfl
        · intro r hr hrr n hadj
          exact Or.inl (hA r hr hrr n hadj)
      have hout := orientDrain_DInv O tau (scanAll metric osign reached faces).2.2
        reached s htau hdist (scanAll metric osign reached faces).2.2 reached [c] hD
      obtain ⟨g1, g2, g3, g4, g5, g6, g7, g8, g9⟩ := hout
      refine orientLoop_main metric osign O tau htau hdist _ _ g1 g2 g4 ?_ ?_
      · intro i hi hri n hadj
        rcases g9 i hi hri n hadj with hx | hx
        · exact hx
        · cases hx
      · intro i j hi hj hij hri hrj d hdi hdj
        by_cases hRi : reached.getD i true = true
          <;> by_cases hRj : reached.getD j true = true
        · have hfi := (g8 i hRi).trans (scanAll_frame metric osign reached faces hRi)
          have hfj := (g8 j hRj).trans (scanAll_frame metric osign reached faces hRj)
          rw [hfi] at hdi
          rw [hfj] at hdj
          exact hC i j hi hj hij hRi hRj d hdi hdj
        · have hkeyi := ekey_mem_of_validAt (g4 i hi) hdi
          have hkeyj := ekey_mem_of_validAt (g4 j hj) hdj
          exact hRj (hA i hi hRi j ⟨ekey d, hkeyi, mem_connO.mpr ⟨hj, hkeyj⟩⟩)
        · have hkeyi := ekey_mem_of_validAt (g4 i hi) hdi
          have hkeyj := ekey_mem_of_validAt (g4 j hj) hdj
          exact hRi (hA j hj hRj i ⟨ekey d, hkeyj, mem_connO.mpr ⟨hi, hkeyi⟩⟩)
        · have hti : (orientDrain O (scanAll metric osign reached faces).2.2 reached
              [c]).1.getD i (0, 0, 0) = tauap tau s i := by
            rcases g7 i hi hri with hx | hx
            · exact absurd hx hRi
            · exact hx
          have htj : (orientDrain O (scanAll metric osign reached faces).2.2 reached
              [c]).1.getD j (0, 0, 0) = tauap tau s j := by
            rcases g7 j hj hrj with hx | hx
            · exact absurd hx hRj
            · exact hx
          rw [hti] at hdi
          rw [htj] at hdj
          exact tau_cross htau hi hj hij s hdi hdj
  termination_by faces reached => countFalse reached
  decreasing_by
    exact orientDrain_count_lt O (scanAll_candidate metric osign reached faces _ (by assumption)) _

theorem checkB_distinct {α : Type} (m : Mesh α) (hck : m.checkB = true) :
    ∀ n < m.faces.length, faceDistinct (m.faces.getD n (0, 0, 0)) := by
  intro n hn
  have hmem : m.faces.getD n (0, 0, 0) ∈ m.faces := by
    rw [List.getD_eq_getElem m.faces (0, 0, 0) hn]
    exact List.getElem_mem _
  exact checkB_faces m hck _ hmem

/-- **C3** (amended): for a mesh passing `check()` whose faces admit a
consistent orientation `tau` (each face kept or reversed, no directed edge
shared by two faces), `Mesh.orient` — for any score/sign closures `metric`
and `osign`, hence in particular for the source's barycentric ones —
returns a face list of the same length in which every face is the original
or its reversal and no two distinct faces run through the same directed
edge: every two faces sharing an edge traverse it in opposite directions.
The spec's unconditional claim is refuted by `C3_counterexample`. -/
theorem C3_orient_consistent {α : Type} (m : Mesh α) (metric : ℕ → ℕ → ℝ × ℝ)
    (osign : ℕ → ℕ → ℝ) (hck : m.checkB = true) (tau : List Face)
    (htau : goodTau m.faces tau) :
    (m.orientM metric osign).faces.length = m.faces.length ∧
    (∀ n < m.faces.length, validAt m.faces (m.orientM metric osign).faces n) ∧
    ∀ i j, i < m.faces.length → j < m.faces.length → i ≠ j →
      ∀ d, d ∈ fedges ((m.orientM metric osign).faces.getD i (0, 0, 0)) →
        d ∉ fedges ((m.orientM metric osign).faces.getD j (0, 0, 0)) := by
  have hdist := checkB_distinct m hck
  have hMf : (m.orientM metric osign).faces =
      orientLoop metric osign m.faces m.faces
        (List.replicate m.faces.length false) := rfl
  have hS := orientLoop_S metric osign m.faces m.faces
    (List.replicate m.faces.length false) ⟨rfl, fun n _ => Or.inl rfl⟩
    (List.length_replicate _ _)
  refine ⟨?_, ?_, ?_⟩
  · rw [hMf]
    exact hS.1
  · rw [hMf]
    exact hS.2
  · rw [hMf]
    refine orientLoop_main metric osign m.faces tau htau hdist m.faces
      (List.replicate m.faces.length false) rfl (List.length_replicate _ _)
      (fun n _ => Or.inl rfl) ?_ ?_
    · intro i hi hri n hadj
      rw [getD_replicate_lt hi] at hri
      cases hri
    · intro i j hi hj hij hri hrj d hdi hdj
      rw [getD_replicate_lt hi] at hri
      cases hri

/-- A two-triangle mesh already consistently oriented, used to witness
`C3_orient_consistent`. -/
def c3good : Mesh ℕ := ⟨[0, 1, 2, 3], [(0, 1, 2), (1, 3, 2)], [0, 0], [()]⟩

/-- The identity orientation of `c3good` is consistent. -/
def c3tau : List Face := [(0, 1, 2), (1, 3, 2)]

theorem c3tau_good : goodTau c3good.faces c3tau := by
  refine ⟨rfl, ?_, ?_⟩
  · intro n hn
    have hn2 : n < 2 := hn
    interval_cases n
    · exact Or.inl rfl
    · exact Or.inl rfl
  · intro i j hi hj hij d hd
    have h0 : c3tau.getD 0 (0, 0, 0) = (0, 1, 2) := rfl
    have h1 : c3tau.getD 1 (0, 0, 0) = (1, 3, 2) := rfl
    have hi2 : i < 2 := hi
    have hj2 : j < 2 := hj
    interval_cases i <;> interval_cases j
    · exact absurd rfl hij
    · rw [h0] at hd
      rw [h1]
      simp only [fedges, List.mem_cons, List.not_mem_nil, or_false] at hd
      rcases hd with rfl | rfl | rfl <;> decide
    · rw [h1] at hd
      rw [h0]
      simp only [fedges, List.mem_cons, List.not_mem_nil, or_false] at hd
      rcases hd with rfl | rfl | rfl <;> decide
    · exact absurd rfl hij

/-- Witness for `C3_orient_consistent` on the two-triangle mesh `c3good`,
with its identity orientation `c3tau` and constant score closures. -/
theorem C3_orient_consistent_witness :
    (c3good.orientM (fun _ _ => ((0 : ℝ), (0 : ℝ)))
      (fun _ _ => (0 : ℝ))).faces.length = 2 := by
  have h := C3_orient_consistent c3good (fun _ _ => ((0 : ℝ), (0 : ℝ)))
    (fun _ _ => (0 : ℝ)) (by decide) c3tau c3tau_good
  exact h.1

/-- Three faces all sharing the edge `{0, 1}`: a mesh passing `check()` for
which no orientation at all — hence no output of `orient` — can make every
adjacent pair traverse their shared edge in opposite directions. -/
def c3fan : Mesh ℕ := ⟨[0, 1, 2, 3, 4], [(0, 1, 2), (0, 1, 3), (0, 1, 4)], [0, 0, 0], [()]⟩

/-- **C3** counterexample: `c3fan` passes `check()`, yet for every choice of
score closures the output of `Mesh.orient` contains two distinct faces
running through a common directed edge (each output face is the original or
its reversal, so two of the three faces traverse the shared edge `{0, 1}`
the same way, by pigeonhole). -/
theorem C3_counterexample :
    c3fan.checkB = true ∧
    ∀ metric : ℕ → ℕ → ℝ × ℝ, ∀ osign : ℕ → ℕ → ℝ,
      ∃ i j, i < 3 ∧ j < 3 ∧ i ≠ j ∧
        ∃ d, d ∈ fedges ((c3fan.orientM metric osign).faces.getD i (0, 0, 0)) ∧
          d ∈ fedges ((c3fan.orientM metric osign).faces.getD j (0, 0, 0)) := by
  refine ⟨by decide, ?_⟩
  intro metric osign
  have hMf : (c3fan.orientM metric osign).faces =
      orientLoop metric osign c3fan.faces c3fan.faces
        (List.replicate c3fan.faces.length false) := rfl
  have hS := orientLoop_S metric osign c3fan.faces c3fan.faces
    (List.replicate c3fan.faces.length false) ⟨rfl, fun n _ => Or.inl rfl⟩
    (List.length_replicate _ _)
  have h0 := hS.2 0 (by decide)
  have h1 := hS.2 1 (by decide)
  have h2 := hS.2 2 (by decide)
  have hf0 : c3fan.faces.getD 0 (0, 0, 0) = (0, 1, 2) := rfl
  have hf1 : c3fan.faces.getD 1 (0, 0, 0) = (0, 1, 3) := rfl
  have hf2 : c3fan.faces.getD 2 (0, 0, 0) = (0, 1, 4) := rfl
  rw [hMf]
  rcases h0 with h0 | h0 <;> rcases h1 with h1 | h1 <;> rcases h2 with h2 | h2
  · refine ⟨0, 1, by norm_num, by norm_num, by norm_num, (0, 1), ?_, ?_⟩
    · rw [hf0] at h0; rw [h0]; decide
    · rw [hf1] at h1; rw [h1]; decide
  · refine ⟨0, 1, by norm_num, by norm_num, by norm_num, (0, 1), ?_, ?_⟩
    · rw [hf0] at h0; rw [h0]; decide
    · rw [hf1] at h1; rw [h1]; decide
  · refine ⟨0, 2, by norm_num, by norm_num, by norm_num, (0, 1), ?_, ?_⟩
    · rw [hf0] at h0; rw [h0]; decide
    · rw [hf2] at h2; rw [h2]; decide
  · refine ⟨1, 2, by norm_num, by norm_num, by norm_num, (1, 0), ?_, ?_⟩
    · rw [hf1] at h1; rw [h1]; decide
    · rw [hf2] at h2; rw [h2]; decide
  · refine ⟨1, 2, by norm_num, by norm_num, by norm_num, (0, 1), ?_, ?_⟩
    · rw [hf1] at h1; rw [h1]; decide
    · rw [hf2] at h2; rw [h2]; decide
  · refine ⟨0, 2, by norm_num, by norm_num, by norm_num, (1, 0), ?_, ?_⟩
    · rw [hf0] at h0; rw [h0]; decide
    · rw [hf2] at h2; rw [h2]; decide
  · refine ⟨0, 1, by norm_num, by norm_num, by norm_num, (1, 0), ?_, ?_⟩
    · rw [hf0] at h0; rw [h0]; decide
    · rw [hf1] at h1; rw [h1]; decide
  · refine ⟨0, 1, by norm_num, by norm_num, by norm_num, (1, 0), ?_, ?_⟩
    · rw [hf0] at h0; rw [h0]; decide
    · rw [hf1] at h1; rw [h1]; decide

end Madcad
